import Mathlib

/-!
Verification of the stream-event reducer of the IC-chips repository
(`src/client/utils/api.ts`, class `FrontendStreamParser` together with
`parseCompleteLog`, and the near-duplicate
`src/client/utils/frontend-stream-parser.js`).

The embedding works over `List Char` (JS strings), models JSON values with
an inductive `Json` type (numbers as integers: every numeric field in the
log format is integral), and models the parser instance as a `Core`
record (everything except the chunk line buffer) plus that buffer.
Callback invocations are modelled as an explicit `emitted` trace, and the
wall-clock `timestamp` fields pushed into `chronologicalEvents` are
omitted (every claim compares states modulo wall-clock timestamps).
-/

namespace ICChips

/-- Shorthand: the character list of a string literal. -/
def cs (s : String) : List Char := s.data

/-- The whitespace characters of the JavaScript `\s` class and of
`String.prototype.trim` relevant to this code's inputs
(space, tab, newline, carriage return, vertical tab, form feed). -/
def isJsWs (c : Char) : Bool :=
  c = ' ' || c = '\t' || c = '\n' || c = '\r' || c = '\x0b' || c = '\x0c'

/-- JavaScript `String.prototype.trim`. -/
def jsTrim (s : List Char) : List Char :=
  ((s.dropWhile isJsWs).reverse.dropWhile isJsWs).reverse

/-- JSON values.  Numbers are modelled as integers: all numeric fields of
the log format (token counts, block indices) are integral, and no claim
involves fractional numbers. -/
inductive Json where
  | null : Json
  | bool : Bool → Json
  | num : Int → Json
  | str : List Char → Json
  | arr : List Json → Json
  | obj : List (List Char × Json) → Json

/-- Field lookup on a JSON object (last occurrence wins, matching the
semantics of duplicate keys in `JSON.parse`); `none` on non-objects,
modelling JavaScript `undefined`. -/
def getField (j : Json) (k : List Char) : Option Json :=
  match j with
  | .obj fs => fs.foldl (fun acc kv => if kv.1 = k then some kv.2 else acc) none
  | _ => none

/-- JavaScript truthiness of a JSON value (objects and arrays are always
truthy, even when empty). -/
def truthy : Json → Bool
  | .null => false
  | .bool b => b
  | .num n => n ≠ 0
  | .str s => s ≠ []
  | .arr _ => true
  | .obj _ => true

/-- Truthiness of a possibly-absent field (`undefined` is falsy). -/
def truthyOpt : Option Json → Bool
  | none => false
  | some v => truthy v

/-- Read a field as a string, yielding `""` when the field is absent or
not a string.  The code reads these fields through `unescapeText`, whose
`if (!text) return ''` guard maps every falsy value to `""`, and whose
`.replace` call throws a `TypeError` on a truthy non-string — that throw
is modelled separately (`evThrows`, `handleEventT`), so this default is
only consulted where the value is absent or falsy. -/
def getStr (j : Json) (k : List Char) : List Char :=
  match getField j k with
  | some (.str s) => s
  | _ => []

/-- `event.type === t` for a string literal `t` (strict equality against a
string is true only for that exact string value). -/
def typeIs (e : Json) (t : List Char) : Bool :=
  match getField e (cs "type") with
  | some (.str s) => s = t
  | _ => false

/-- Whether the `type` field of `e` is one of the given strings. -/
def typeAmong (e : Json) (names : List (List Char)) : Bool :=
  names.any (typeIs e)

end ICChips

namespace ICChips

/-! ### A model of `JSON.parse`

Faithful to the JSON grammar on the inputs that occur in the log format:
objects, arrays, strings with the standard escapes, integers, literals.
Not modelled (no claim involves them, noted for honesty): fractional and
exponent number forms, the leading-zero restriction on numbers, and
UTF-16 surrogate pairs from `\uXXXX` escapes. -/

/-- JSON insignificant whitespace (space, tab, newline, carriage return). -/
def isJsonWs (c : Char) : Bool :=
  c = ' ' || c = '\t' || c = '\n' || c = '\r'

/-- Skip insignificant whitespace. -/
def skipWs (s : List Char) : List Char := s.dropWhile isJsonWs

/-- Value of a hexadecimal digit. -/
def hexVal? (c : Char) : Option Nat :=
  if '0' ≤ c ∧ c ≤ '9' then some (c.toNat - '0'.toNat)
  else if 'a' ≤ c ∧ c ≤ 'f' then some (c.toNat - 'a'.toNat + 10)
  else if 'A' ≤ c ∧ c ≤ 'F' then some (c.toNat - 'A'.toNat + 10)
  else none

/-- Value of a decimal digit. -/
def digitVal? (c : Char) : Option Nat :=
  if '0' ≤ c ∧ c ≤ '9' then some (c.toNat - '0'.toNat) else none

/-- The two-character escapes accepted inside JSON strings. -/
def escChar? : Char → Option Char
  | '"' => some '"'
  | '\\' => some '\\'
  | '/' => some '/'
  | 'b' => some '\x08'
  | 'f' => some '\x0c'
  | 'n' => some '\n'
  | 'r' => some '\r'
  | 't' => some '\t'
  | _ => none

/-- Body of a JSON string, after the opening quote: returns the decoded
characters and the remainder after the closing quote.  Unescaped control
characters and invalid escapes are rejected, as in `JSON.parse`. -/
def parseJStringAux : List Char → Option (List Char × List Char)
  | [] => none
  | '"' :: r => some ([], r)
  | '\\' :: 'u' :: h1 :: h2 :: h3 :: h4 :: r =>
    match hexVal? h1, hexVal? h2, hexVal? h3, hexVal? h4 with
    | some a, some b, some c, some d =>
      (parseJStringAux r).map
        (fun p => (Char.ofNat ((((a * 16 + b) * 16 + c) * 16) + d) :: p.1, p.2))
    | _, _, _, _ => none
  | '\\' :: e :: r =>
    match escChar? e with
    | some c => (parseJStringAux r).map (fun p => (c :: p.1, p.2))
    | none => none
  | '\\' :: [] => none
  | c :: r =>
    if c.toNat < 0x20 then none
    else (parseJStringAux r).map (fun p => (c :: p.1, p.2))

/-- Digit run of a number: accumulates onto `acc`; requires at least one
digit (tracked by the caller via the first character). -/
def parseDigitsAux (acc : Nat) : List Char → Nat × List Char
  | [] => (acc, [])
  | c :: r =>
    match digitVal? c with
    | some d => parseDigitsAux (acc * 10 + d) r
    | none => (acc, c :: r)

mutual

/-- A JSON value; `fuel` bounds recursion depth (callers pass a fuel that
is ample for any input of the given length, so fuel exhaustion never
occurs on reachable inputs). -/
def parseVal : Nat → List Char → Option (Json × List Char)
  | 0, _ => none
  | fuel + 1, s =>
    match skipWs s with
    | 'n' :: 'u' :: 'l' :: 'l' :: r => some (.null, r)
    | 't' :: 'r' :: 'u' :: 'e' :: r => some (.bool true, r)
    | 'f' :: 'a' :: 'l' :: 's' :: 'e' :: r => some (.bool false, r)
    | '"' :: r => (parseJStringAux r).map (fun p => (.str p.1, p.2))
    | '{' :: r =>
      (match skipWs r with
       | '}' :: r1 => some (.obj [], r1)
       | _ => (parseMembers fuel r []).map (fun p => (.obj p.1, p.2)))
    | '[' :: r =>
      (match skipWs r with
       | ']' :: r1 => some (.arr [], r1)
       | _ => (parseItems fuel r []).map (fun p => (.arr p.1, p.2)))
    | '-' :: c :: r =>
      (match digitVal? c with
       | some d =>
         (fun p => some (.num (-(p.1 : Int)), p.2)) (parseDigitsAux d r)
       | none => none)
    | c :: r =>
      (match digitVal? c with
       | some d => (fun p => some (.num (p.1 : Int), p.2)) (parseDigitsAux d r)
       | none => none)
    | [] => none

/-- Members of a JSON object, after the opening brace (nonempty case). -/
def parseMembers (fuel : Nat) (s : List Char) (acc : List (List Char × Json)) :
    Option (List (List Char × Json) × List Char) :=
  match fuel with
  | 0 => none
  | fuel + 1 =>
    match skipWs s with
    | '"' :: r =>
      (match parseJStringAux r with
       | none => none
       | some (key, r1) =>
         match skipWs r1 with
         | ':' :: r2 =>
           (match parseVal fuel r2 with
            | none => none
            | some (v, r3) =>
              match skipWs r3 with
              | ',' :: r4 => parseMembers fuel r4 (acc ++ [(key, v)])
              | '}' :: r4 => some (acc ++ [(key, v)], r4)
              | _ => none)
         | _ => none)
    | _ => none

/-- Items of a JSON array, after the opening bracket (nonempty case). -/
def parseItems (fuel : Nat) (s : List Char) (acc : List Json) :
    Option (List Json × List Char) :=
  match fuel with
  | 0 => none
  | fuel + 1 =>
    match parseVal fuel s with
    | none => none
    | some (v, r1) =>
      match skipWs r1 with
      | ',' :: r2 => parseItems fuel r2 (acc ++ [v])
      | ']' :: r2 => some (acc ++ [v], r2)
      | _ => none

end

/-- `JSON.parse`: a complete JSON text, allowing trailing whitespace. -/
def jsonParse (s : List Char) : Option Json :=
  match parseVal (2 * s.length + 8) s with
  | some (v, rest) => if skipWs rest = [] then some v else none
  | none => none

end ICChips

namespace ICChips

/-! ### The view model (`this.state` of `FrontendStreamParser`) -/

/-- A finalized tool input: either the JSON object produced by
`JSON.parse`, or, when that parse fails, the raw accumulated string. -/
inductive ToolInput where
  | parsed : Json → ToolInput
  | raw : List Char → ToolInput

/-- One entry of `state.toolUses`; `input` is `null` until the tool's
content block closes. -/
structure ToolUse where
  id : List Char
  name : List Char
  input : Option ToolInput

/-- One entry of `state.tables` as built by `parseMarkdownTable`. -/
structure ParsedTable where
  headers : List (List Char)
  rows : List (List (List Char))
  rowCount : Nat
  columnCount : Nat
  rawText : List Char

/-- One entry of `state.chronologicalEvents`.  The wall-clock `timestamp`
field is omitted (claims compare states ignoring timestamps).  The JS
code pushes the *same object reference* for a tool into both `toolUses`
and the chronological entries and later mutates it in place; here each
entry stores an immutable snapshot taken at push time. -/
inductive ChronoEvent where
  | text : List Char → ChronoEvent
  | thinking : List Char → ChronoEvent
  | toolCommand : List Char → ChronoEvent
  | toolUseStart : ToolUse → ChronoEvent
  | toolComplete : ToolUse → ChronoEvent
  | table : ParsedTable → ChronoEvent

/-- `state.usage`.  The JS object starts as
`{inputTokens: 0, outputTokens: 0, totalTokens: 0}` (no
`cacheReadTokens` key); an absent key reads as `undefined`, which every
use site coerces to `0` through `||`, so all four fields are modelled as
integers starting at `0`. -/
structure Usage where
  inputTokens : Int
  outputTokens : Int
  totalTokens : Int
  cacheReadTokens : Int

/-- `state.metadata`.  Non-string incoming values for these fields are
modelled as the empty string (no claim reads them). -/
structure Metadata where
  sessionId : List Char
  messageId : List Char
  model : List Char
  startTime : List Char

/-- The view model, `this.state`. -/
structure StreamState where
  metadata : Metadata
  thinking : List Char
  assistantText : List Char
  toolUses : List ToolUse
  toolCommands : List (List Char)
  fullToolCommand : List Char
  tables : List ParsedTable
  chronologicalEvents : List ChronoEvent
  webSearchActivity : List (List Char)
  toolActivity : List (List Char)
  usage : Usage
  isComplete : Bool

/-- A recorded callback invocation, in invocation order.  The payload of
`onComplete` (the `getState()` snapshot) is determined by the state at
the emission point and is left off the trace constructor; `onError`
carries the caught exception, likewise omitted. -/
inductive Emit where
  | textUpdate : List Char → List Char → Emit
  | thinkingUpdate : List Char → List Char → Emit
  | toolUse : ToolUse → Emit
  | toolCommand : List Char → List Char → Emit
  | toolComplete : ToolUse → Emit
  | tableDetected : ParsedTable → List ParsedTable → Emit
  | complete : Emit
  | error : Emit

/-- Everything of a `FrontendStreamParser` instance except the chunk
buffer `this.buffer`: the view model, the partial-JSON accumulator of
the event extractor, the per-tool accumulators, the two activity flags,
and the callback trace. -/
structure Core where
  state : StreamState
  jsonBuffer : List Char
  currentToolInput : List Char
  currentToolName : List Char
  currentToolId : List Char
  isWebSearchActive : Bool
  isToolActive : Bool
  emitted : List Emit

/-- The freshly-constructed state. -/
def initState : StreamState where
  metadata := { sessionId := [], messageId := [], model := [], startTime := [] }
  thinking := []
  assistantText := []
  toolUses := []
  toolCommands := []
  fullToolCommand := []
  tables := []
  chronologicalEvents := []
  webSearchActivity := []
  toolActivity := []
  usage := { inputTokens := 0, outputTokens := 0, totalTokens := 0, cacheReadTokens := 0 }
  isComplete := false

/-- A freshly-constructed parser core. -/
def initCore : Core where
  state := initState
  jsonBuffer := []
  currentToolInput := []
  currentToolName := []
  currentToolId := []
  isWebSearchActive := false
  isToolActive := false
  emitted := []

/-! ### `unescapeText`

The JS method is a chain of seven global `String.prototype.replace`
calls, applied in this order: `\n`, `\"`, `\t`, `\r`, `\/`, `\uXXXX`,
and finally `\\`.  Each global replace scans left to right and does not
rescan its own output. -/

/-- One global replace of the two-character pattern backslash-`pat` by
`out`, scanning left to right without rescanning the replacement. -/
def replacePair (pat out : Char) : List Char → List Char
  | [] => []
  | ['\\'] => ['\\']
  | '\\' :: c :: rest =>
    if c = pat then out :: replacePair pat out rest
    else '\\' :: replacePair pat out (c :: rest)
  | c :: rest => c :: replacePair pat out rest

/-- The global replace of `\uXXXX` escapes by
`String.fromCharCode(parseInt(hex, 16))`.  (UTF-16 surrogate code units
are outside the `Char` range and are not modelled; no claim uses them.) -/
def replaceUnicode : List Char → List Char
  | '\\' :: 'u' :: h1 :: h2 :: h3 :: h4 :: rest =>
    match hexVal? h1, hexVal? h2, hexVal? h3, hexVal? h4 with
    | some a, some b, some c, some d =>
      Char.ofNat ((((a * 16 + b) * 16 + c) * 16) + d) :: replaceUnicode rest
    | _, _, _, _ => '\\' :: replaceUnicode ('u' :: h1 :: h2 :: h3 :: h4 :: rest)
  | c :: rest => c :: replaceUnicode rest
  | [] => []

/-- The first six substitutions of `unescapeText` (everything before the
final backslash-backslash replace). -/
def unescapeStages6 (s : List Char) : List Char :=
  replaceUnicode
    (replacePair '/' '/'
      (replacePair 'r' '\r'
        (replacePair 't' '\t'
          (replacePair '"' '"'
            (replacePair 'n' '\n' s)))))

/-- `FrontendStreamParser.unescapeText` (the `if (!text) return ''` guard
is the identity on the empty string and absent fields are mapped to the
empty string at call sites). -/
def unescapeText (s : List Char) : List Char :=
  replacePair '\\' '\\' (unescapeStages6 s)

end ICChips

namespace ICChips

/-! ### The parameter-sniffing regexes of the `input_json_delta` branch

`/"query":\s*"([^"]+)"/`, `/"url":\s*"([^"]+)"/`,
`/"prompt":\s*"([^"]+)"/` and `/"(search_term|query)":\s*"([^"]+)"/`,
each used through `String.prototype.match` (first match, leftmost). -/

/-- Try the pattern `"key":\s*"([^"]+)"` anchored at the start of `s`;
returns the capture group. -/
def matchKeyAt (key : List Char) (s : List Char) : Option (List Char) :=
  let pat := '"' :: key ++ ['"', ':']
  if pat.isPrefixOf s then
    let afterColon := (s.drop pat.length).dropWhile isJsWs
    match afterColon with
    | '"' :: r =>
      let cap := r.takeWhile (· ≠ '"')
      if cap ≠ [] ∧ (r.dropWhile (· ≠ '"')) ≠ [] then some cap else none
    | _ => none
  else none

/-- Leftmost match of `"key":\s*"([^"]+)"` anywhere in `s`. -/
def findKeyVal (key : List Char) : List Char → Option (List Char)
  | [] => none
  | c :: rest =>
    match matchKeyAt key (c :: rest) with
    | some cap => some cap
    | none => findKeyVal key rest

/-- Leftmost match of `"(search_term|query)":\s*"([^"]+)"` in `s`,
returning the second capture group (alternatives tried left to right at
each position, as a backtracking regex engine does). -/
def findKeyVal2 (k1 k2 : List Char) : List Char → Option (List Char)
  | [] => none
  | c :: rest =>
    match matchKeyAt k1 (c :: rest) with
    | some cap => some cap
    | none =>
      match matchKeyAt k2 (c :: rest) with
      | some cap => some cap
      | none => findKeyVal2 k1 k2 rest

/-- `command.replace(/[\r\n]+/g, ' ')`: collapse every run of carriage
returns and newlines into a single space. -/
def collapseNlAux (prevNl : Bool) : List Char → List Char
  | [] => []
  | c :: rest =>
    if c = '\r' ∨ c = '\n' then
      if prevNl then collapseNlAux true rest
      else ' ' :: collapseNlAux true rest
    else c :: collapseNlAux false rest

/-- See `collapseNlAux`. -/
def collapseNl (s : List Char) : List Char := collapseNlAux false s

/-- `String.prototype.includes`. -/
def jsIncludes (needle : List Char) : List Char → Bool
  | [] => needle.isPrefixOf []
  | c :: rest => needle.isPrefixOf (c :: rest) || jsIncludes needle rest

end ICChips

namespace ICChips

/-! ### Markdown-table detection

The regex `/(\|[^\n]+\|\n\|[-:\s|]+\|\n(?:\|[^\n]+\|\n?)+)/g` applied
through `matchAll`, modelled by a direct backtracking matcher:

* header: `\|[^\n]+\|\n` — since `[^\n]` cannot cross a newline and the
  closing `\|` is immediately followed by `\n`, this deterministically
  matches one whole line that starts and ends with `|` and has at least
  three characters;
* separator: `\|[-:\s|]+\|\n` — the class contains `\s`, which includes
  the newline, so the greedy run may span lines; the engine backtracks
  over the run length until the following `\|\n` and the rest of the
  pattern match;
* rows: `(?:\|[^\n]+\|\n?)+` — greedy; each row starts with `|`, the
  closing `\|` backtracks to the last `|` of the line, and the optional
  newline is taken when present.  Nothing follows the group, so the
  iteration simply stops at the first position where no further row
  matches. -/

/-- The character class `[-:\s|]`. -/
def isSepChar (c : Char) : Bool :=
  c = '-' || c = ':' || c = '|' || isJsWs c

/-- Header (or data-row start): one line `\|[^\n]+\|` whose closing bar
must be immediately followed by a newline.  Returns (line without the
newline, rest after the newline). -/
def matchHeader : List Char → Option (List Char × List Char)
  | '|' :: t =>
    let mid := t.takeWhile (· ≠ '\n')
    let rest := t.dropWhile (· ≠ '\n')
    match rest with
    | '\n' :: r =>
      if 2 ≤ mid.length ∧ mid.getLast? = some '|' then some ('|' :: mid, r)
      else none
    | _ => none
  | _ => none

/-- One data row `\|[^\n]+\|\n?`: the closing `\|` backtracks to the
last `|` of the current line (at offset ≥ 2), the optional newline is
consumed greedily.  Returns (consumed text, rest). -/
def matchRow : List Char → Option (List Char × List Char)
  | '|' :: t =>
    let mid := t.takeWhile (· ≠ '\n')
    let rest := t.dropWhile (· ≠ '\n')
    -- last '|' in mid at index ≥ 1: split mid as pre ++ '|' :: post with '|' ∉ post
    let post := mid.reverse.takeWhile (· ≠ '|')
    let pre' := mid.reverse.dropWhile (· ≠ '|')
    match pre' with
    | '|' :: preRev =>
      if preRev = [] then none  -- the '|' found is the opening bar's neighbor gap: [^\n]+ would be empty
      else
        let consumedLine := '|' :: (preRev.reverse ++ ['|'])
        let after := post.reverse ++ rest
        match after with
        | '\n' :: r => some (consumedLine ++ ['\n'], r)
        | _ => some (consumedLine, after)
    | _ => none
  | _ => none

/-- `(?:\|[^\n]+\|\n?)+` after the first row: keep matching rows while
possible.  Fueled by the length of the remaining text. -/
def matchRowsAux : Nat → List Char → List Char × List Char
  | 0, s => ([], s)
  | fuel + 1, s =>
    match matchRow s with
    | some (consumed, rest) =>
      let p := matchRowsAux fuel rest
      (consumed ++ p.1, p.2)
    | none => ([], s)

/-- One or more data rows. -/
def matchRows (s : List Char) : Option (List Char × List Char) :=
  match matchRow s with
  | some (consumed, rest) =>
    let p := matchRowsAux rest.length rest
    some (consumed ++ p.1, p.2)
  | none => none

/-- Separator-and-rows: `\|[-:\s|]+\|\n` followed by the data rows, with
the run length `i` of the class backtracking from longest to shortest.
`t` is the text after the separator's opening bar. -/
def matchSepRowsAux (t : List Char) : Nat → Option (List Char × List Char)
  | 0 => none
  | i + 1 =>
    match t.drop (i + 1) with
    | '|' :: '\n' :: after =>
      (match matchRows after with
       | some (rows, rest) =>
         some ('|' :: (t.take (i + 1) ++ '|' :: '\n' :: rows), rest)
       | none => matchSepRowsAux t i)
    | _ => matchSepRowsAux t i

/-- Separator line(s) plus data rows, starting at the separator's opening
bar. -/
def matchSepRows : List Char → Option (List Char × List Char)
  | '|' :: t =>
    let runLen := (t.takeWhile isSepChar).length
    -- `[-:\s|]+` consumes i ∈ [1, runLen] characters; `\|` itself is a
    -- class character, so i = runLen never matches, but trying it is
    -- harmless and mirrors the greedy engine.
    matchSepRowsAux t runLen
  | _ => none

/-- Whole-table match of the regex at the current position: header line,
then separator-and-rows. -/
def matchTableAt (s : List Char) : Option (List Char × List Char) :=
  match matchHeader s with
  | some (line1, r1) =>
    (match matchSepRows r1 with
     | some (sepRows, rest) => some (line1 ++ '\n' :: sepRows, rest)
     | none => none)
  | none => none

/-- `matchAll`: leftmost matches, scanning resumes after each match.
Fueled by the text length: every step consumes at least one character,
so the fuel can only run out when the text is exhausted. -/
def tableMatchesAux : Nat → List Char → List (List Char)
  | 0, _ => []
  | fuel + 1, s =>
    match s with
    | [] => []
    | _ :: rest =>
      match matchTableAt s with
      | some (m, r) => m :: tableMatchesAux fuel r
      | none => tableMatchesAux fuel rest

/-- All matches of the table regex in `s`. -/
def tableMatches (s : List Char) : List (List Char) :=
  tableMatchesAux s.length s

/-- Generic split on a separator character (JS `String.prototype.split`
with a single-character separator); the result is always nonempty. -/
def splitOnChar (sep : Char) : List Char → List (List Char)
  | [] => [[]]
  | c :: rest =>
    if c = sep then [] :: splitOnChar sep rest
    else
      match splitOnChar sep rest with
      | l :: ls => (c :: l) :: ls
      | [] => [[c]]

/-- `line.split('|').filter(cell => cell.trim()).map(cell => cell.trim())`. -/
def splitCells (line : List Char) : List (List Char) :=
  ((splitOnChar '|' line).filter (fun c => jsTrim c ≠ [])).map jsTrim

/-- `FrontendStreamParser.parseMarkdownTable`.  The surrounding
`try`/`catch` can never fire: every operation in the body is total. -/
def parseMarkdownTable (tableText : List Char) : Option ParsedTable :=
  let lines := (splitOnChar '\n' (jsTrim tableText)).filter (fun l => jsTrim l ≠ [])
  if lines.length < 3 then none
  else
    let headers := splitCells (lines.head?.getD [])
    let rows := (lines.drop 2).filterMap
      (fun l => let row := splitCells l; if row ≠ [] then some row else none)
    some { headers := headers, rows := rows, rowCount := rows.length,
           columnCount := headers.length, rawText := tableText }

/-- Body of the `detectAndParseTables` loop for one raw match: parse it
and, when the parse yields a table, push it (dropping it silently
otherwise).  `onTableDetected` receives the (already pushed-to) tables
array, i.e. the value including the new entry. -/
def detectPush (c : Core) (m : List Char) : Core :=
  match parseMarkdownTable m with
  | some t =>
    { c with
      state := { c.state with
        tables := c.state.tables ++ [t],
        chronologicalEvents := c.state.chronologicalEvents ++ [ChronoEvent.table t] },
      emitted := c.emitted ++ [Emit.tableDetected t (c.state.tables ++ [t])] }
  | none => c

/-- `FrontendStreamParser.detectAndParseTables`: re-scan the whole
accumulated text; parse and append only the matches at index ≥
`tables.length`.  The JS loop iterates `i` over fixed match indices while
pushing to `tables`, which is the same as folding `detectPush` over the
dropped prefix. -/
def detectAndParseTables (c : Core) : Core :=
  let ms := tableMatches c.state.assistantText
  if ms.length > c.state.tables.length then
    (ms.drop c.state.tables.length).foldl detectPush c
  else c

end ICChips

namespace ICChips

/-! ### `handleEvent`

The JS method is a sequence of independent (non-`else`) `if` blocks, one
per recognized event pattern; it is modelled as the composition of one
step function per block, applied in source order. -/

/-- A possibly-absent JSON value as a string, `""` otherwise. -/
def asStr : Option Json → List Char
  | some (.str s) => s
  | _ => []

/-- `event.delta.type === t`. -/
def deltaTypeIs (delta : Json) (t : List Char) : Bool :=
  match getField delta (cs "type") with
  | some (.str s) => s = t
  | _ => false

/-- Replace the last element of a list, if any. -/
def modifyLast (f : ToolUse → ToolUse) : List ToolUse → List ToolUse
  | [] => []
  | [t] => [f t]
  | t :: rest => t :: modifyLast f rest

/-- Append a line to `state.toolActivity`. -/
def pushTA (c : Core) (l : List Char) : Core :=
  { c with state := { c.state with toolActivity := c.state.toolActivity ++ [l] } }

/-- Append a line to `state.webSearchActivity`. -/
def pushWSA (c : Core) (l : List Char) : Core :=
  { c with state := { c.state with webSearchActivity := c.state.webSearchActivity ++ [l] } }

/-- `if (event.session_id) { ... }` — stores the session id and model.
Non-string values are modelled as the empty string (no claim reads
them). -/
def sessionStep (c : Core) (e : Json) : Core :=
  if truthyOpt (getField e (cs "session_id")) then
    { c with state := { c.state with metadata := { c.state.metadata with
        sessionId := asStr (getField e (cs "session_id")),
        model := asStr (getField e (cs "model")) } } }
  else c

/-- `updateUsage` (identical in `api.ts` and
`frontend-stream-parser.js`): `x || y || 0` with a numeric incoming
field `x` keeps `x` when nonzero, else the stored value (itself `0`
when unset); `cache_read_input_tokens || 0` does not consult the stored
value.  `totalTokens` is recomputed from the freshly stored fields.
(Non-numeric truthy incoming fields — impossible in the log format —
are not modelled.) -/
def updateUsage (u : Usage) (j : Json) : Usage :=
  let inT : Int :=
    match getField j (cs "input_tokens") with
    | some (.num n) => if n = 0 then u.inputTokens else n
    | _ => u.inputTokens
  let outT : Int :=
    match getField j (cs "output_tokens") with
    | some (.num n) => if n = 0 then u.outputTokens else n
    | _ => u.outputTokens
  let cache : Int :=
    match getField j (cs "cache_read_input_tokens") with
    | some (.num n) => n
    | _ => 0
  { inputTokens := inT, outputTokens := outT,
    totalTokens := inT + outT, cacheReadTokens := cache }

/-- `if (event.type === 'message_start' && event.message) { ... }`. -/
def messageStartStep (c : Core) (e : Json) : Core :=
  if typeIs e (cs "message_start") ∧ truthyOpt (getField e (cs "message")) then
    let msg := (getField e (cs "message")).getD .null
    let c1 := { c with state := { c.state with metadata :=
      { c.state.metadata with messageId := getStr msg (cs "id") } } }
    if truthyOpt (getField msg (cs "usage")) then
      { c1 with state := { c1.state with
          usage := updateUsage c1.state.usage ((getField msg (cs "usage")).getD .null) } }
    else c1
  else c

/-- The `text_delta` sub-branch: unescape, append to `assistantText`,
push the chronological entry, re-scan for tables, fire `onTextUpdate`. -/
def textDelta (c : Core) (delta : Json) : Core :=
  let text := unescapeText (getStr delta (cs "text"))
  let c1 := { c with state := { c.state with
      assistantText := c.state.assistantText ++ text,
      chronologicalEvents := c.state.chronologicalEvents ++ [ChronoEvent.text text] } }
  let c2 := detectAndParseTables c1
  { c2 with emitted := c2.emitted ++ [Emit.textUpdate text c2.state.assistantText] }

/-- The `thinking_delta` sub-branch. -/
def thinkingDelta (c : Core) (delta : Json) : Core :=
  let th := unescapeText (getStr delta (cs "thinking"))
  let c1 := { c with state := { c.state with
      thinking := c.state.thinking ++ th,
      chronologicalEvents := c.state.chronologicalEvents ++ [ChronoEvent.thinking th] } }
  { c1 with emitted := c1.emitted ++ [Emit.thinkingUpdate th c1.state.thinking] }

/-- The `  → Query: "..."` narration line. -/
def queryLine (cap : List Char) : List Char :=
  cs "  → Query: \"" ++ cap ++ cs "\""

/-- The `  → URL: ...` narration line. -/
def urlLine (cap : List Char) : List Char :=
  cs "  → URL: " ++ cap

/-- The `  → Prompt: "..."` narration line (captures longer than 100
characters are truncated with an ellipsis). -/
def promptLine (cap : List Char) : List Char :=
  let t := if cap.length > 100 then cap.take 100 ++ cs "..." else cap
  cs "  → Prompt: \"" ++ t ++ cs "\""

/-- Push `l` to `toolActivity` unless the current last activity line
contains `marker` (the `!lastActivity || !lastActivity.includes(...)`
guard; activity lines are never the empty string, so truthiness of
`lastActivity` is just presence). -/
def pushTAUnless (c : Core) (marker l : List Char) : Core :=
  match c.state.toolActivity.getLast? with
  | some la => if jsIncludes marker la then c else pushTA c l
  | none => pushTA c l

/-- The accumulation at the head of the `input_json_delta` branch:
`currentToolInput += command`, `toolCommands.push(command)`,
`fullToolCommand += command`. -/
def inputDeltaAccum (c : Core) (command : List Char) : Core :=
  { c with
    currentToolInput := c.currentToolInput ++ command,
    state := { c.state with
      toolCommands := c.state.toolCommands ++ [command],
      fullToolCommand := c.state.fullToolCommand ++ command } }

/-- The `queryMatch` narration: the regexes run on the accumulated
`currentToolInput` (none of the narration helpers changes it). -/
def sniffQuery (c : Core) : Core :=
  match findKeyVal (cs "query") c.currentToolInput with
  | some cap => pushTAUnless c (cs "Query:") (queryLine cap)
  | none => c

/-- The `urlMatch` narration. -/
def sniffUrl (c : Core) : Core :=
  match findKeyVal (cs "url") c.currentToolInput with
  | some cap => pushTAUnless c (cs "URL:") (urlLine cap)
  | none => c

/-- The `promptMatch` narration. -/
def sniffPrompt (c : Core) : Core :=
  match findKeyVal (cs "prompt") c.currentToolInput with
  | some cap => pushTAUnless c (cs "Prompt:") (promptLine cap)
  | none => c

/-- The `if (this.isToolActive && this.currentToolName)` narration block:
query, then url, then prompt. -/
def sniffParams (c : Core) : Core :=
  if c.isToolActive ∧ c.currentToolName ≠ [] then
    sniffPrompt (sniffUrl (sniffQuery c))
  else c

/-- The raw-activity fallback of the web-search narration block. -/
def wsProcessing (c : Core) (command : List Char) : Core :=
  if jsTrim ((collapseNl command).take 50) ≠ [] then
    pushWSA c (cs "  ⚡ Processing: " ++ (collapseNl command).take 50 ++ cs "...")
  else c

/-- The `if (this.isWebSearchActive)` narration block: show the detected
search term once, otherwise show raw progress.  The
`potentialMatch && command.includes(quote)` guard falls through to the
raw-progress branch when either side fails. -/
def wsNarrate (c : Core) (command : List Char) : Core :=
  if c.isWebSearchActive then
    match findKeyVal2 (cs "search_term") (cs "query") c.currentToolInput with
    | some cap =>
      if jsIncludes (cs "\"") command then
        (match c.state.webSearchActivity.getLast? with
         | some la =>
           if jsIncludes (cs "Searching for:") la then c
           else pushWSA c (cs "  → Searching for: \"" ++ cap ++ cs "\"")
         | none => pushWSA c (cs "  → Searching for: \"" ++ cap ++ cs "\""))
      else wsProcessing c command
    | none => wsProcessing c command
  else c

/-- The tail of the `input_json_delta` branch: push the chronological
`tool_command` entry and fire `onToolCommand(command, fullToolCommand)`
(the chronological push does not change `fullToolCommand`, so the
callback payload is the incoming state's value). -/
def inputDeltaFinish (c : Core) (command : List Char) : Core :=
  { c with
    state := { c.state with
      chronologicalEvents := c.state.chronologicalEvents ++ [ChronoEvent.toolCommand command] },
    emitted := c.emitted ++ [Emit.toolCommand command c.state.fullToolCommand] }

/-- The `input_json_delta` sub-branch: accumulate the fragment, narrate
recognizable parameters, narrate web-search activity, push the
chronological entry, fire `onToolCommand`. -/
def inputJsonDelta (c : Core) (delta : Json) : Core :=
  let command := unescapeText (getStr delta (cs "partial_json"))
  inputDeltaFinish (wsNarrate (sniffParams (inputDeltaAccum c command)) command) command

/-- `if (event.type === 'content_block_delta' && event.delta) { ... }`:
the three sub-branches test `delta.type` independently (at most one can
fire since `type` is a single value). -/
def deltaStep (c : Core) (e : Json) : Core :=
  if typeIs e (cs "content_block_delta") ∧ truthyOpt (getField e (cs "delta")) then
    let delta := (getField e (cs "delta")).getD .null
    let c1 := if deltaTypeIs delta (cs "text_delta") then textDelta c delta else c
    let c2 := if deltaTypeIs delta (cs "thinking_delta") then thinkingDelta c1 delta else c1
    if deltaTypeIs delta (cs "input_json_delta") then inputJsonDelta c2 delta else c2
  else c

/-- `if (event.type === 'content_block_start' && event.content_block)`
with `content_block.type === 'tool_use'`: start a new ToolUse record,
reset the per-tool accumulator, classify search tools, narrate, fire
`onToolUse`. -/
def blockStartStep (c : Core) (e : Json) : Core :=
  if typeIs e (cs "content_block_start") ∧ truthyOpt (getField e (cs "content_block")) then
    let cb := (getField e (cs "content_block")).getD .null
    if deltaTypeIs cb (cs "tool_use") then
      let tid := getStr cb (cs "id")
      let tname := getStr cb (cs "name")
      let isWS := tname = cs "WebSearch" ∨ tname = cs "web_search"
      let toolInfo : ToolUse := { id := tid, name := tname, input := none }
      let emoji :=
        if tname = cs "WebSearch" then cs "🔍"
        else if tname = cs "WebFetch" then cs "📄"
        else cs "🔧"
      let c1 := { c with
        currentToolId := tid, currentToolName := tname, currentToolInput := [],
        isWebSearchActive := isWS, isToolActive := true,
        state := { c.state with
          toolUses := c.state.toolUses ++ [toolInfo],
          chronologicalEvents := c.state.chronologicalEvents ++ [ChronoEvent.toolUseStart toolInfo],
          toolActivity := c.state.toolActivity ++
            [emoji ++ cs " Starting " ++ tname ++ cs "..."] } }
      let c2 := if isWS then pushWSA c1 (cs "🔍 Starting web search...") else c1
      { c2 with emitted := c2.emitted ++ [Emit.toolUse toolInfo] }
    else c
  else c

/-- The tool-completion narration of the stop branch (all three arms of
the completion-emoji conditional are `'✅'`; `currentToolName` is still
set at this point, cleared only afterwards). -/
def stopToolNarrate (c : Core) : Core :=
  if c.isToolActive then
    pushTA c (cs "✅ " ++ c.currentToolName ++ cs " completed\n")
  else c

/-- The web-search completion narration of the stop branch (also resets
the web-search flag). -/
def stopWsNarrate (c : Core) : Core :=
  if c.isWebSearchActive then
    let c' := pushWSA c (cs "✅ Web search completed")
    { c' with isWebSearchActive := false }
  else c

/-- The final clearing of the per-tool accumulators and flags. -/
def stopClear (c : Core) : Core :=
  { c with
    currentToolInput := [], currentToolName := [], currentToolId := [],
    isToolActive := false }

/-- The body of the stop branch once the
`currentToolInput && toolUses.length > 0` guard has passed: finalize the
last ToolUse entry, narrate, clear. -/
def blockStopFinalize (c : Core) : Core :=
  let inp : ToolInput :=
    match jsonParse c.currentToolInput with
    | some j => .parsed j
    | none => .raw c.currentToolInput
  let updated := modifyLast (fun t => { t with input := some inp }) c.state.toolUses
  let lastTool := (updated.getLast?).getD { id := [], name := [], input := none }
  let c1 := { c with state := { c.state with
      toolUses := updated,
      chronologicalEvents := c.state.chronologicalEvents ++ [ChronoEvent.toolComplete lastTool] } }
  let c2 := { c1 with emitted := c1.emitted ++ [Emit.toolComplete lastTool] }
  stopClear (stopWsNarrate (stopToolNarrate c2))

/-- `if (event.type === 'content_block_stop')`: when a tool input has
been accumulated and at least one ToolUse entry exists, finalize it onto
the **last** ToolUse entry (parsed JSON, or the raw string if
`JSON.parse` fails), narrate completion, fire `onToolComplete`, and
clear the per-tool accumulators and flags. -/
def blockStopStep (c : Core) (e : Json) : Core :=
  if typeIs e (cs "content_block_stop") then
    if c.currentToolInput ≠ [] ∧ c.state.toolUses.length > 0 then
      blockStopFinalize c
    else c
  else c

/-- `if (event.type === 'message_delta' && event.usage)`. -/
def usageStep (c : Core) (e : Json) : Core :=
  if typeIs e (cs "message_delta") ∧ truthyOpt (getField e (cs "usage")) then
    { c with state := { c.state with
        usage := updateUsage c.state.usage ((getField e (cs "usage")).getD .null) } }
  else c

/-- `if (event.type === 'message_stop')`. -/
def messageStopStep (c : Core) (e : Json) : Core :=
  if typeIs e (cs "message_stop") then
    { c with
      state := { c.state with isComplete := true },
      emitted := c.emitted ++ [Emit.complete] }
  else c

/-- `FrontendStreamParser.handleEvent`: the seven blocks in source
order. -/
def handleEvent (c : Core) (e : Json) : Core :=
  messageStopStep
    (usageStep
      (blockStopStep
        (blockStartStep
          (deltaStep
            (messageStartStep
              (sessionStep c e) e) e) e) e) e) e

/-- Fold `handleEvent` over a list of already-extracted events from a
fresh parser. -/
def runEvents (es : List Json) : Core :=
  es.foldl handleEvent initCore

end ICChips

namespace ICChips

/-! ### `extractEvents` / `processChunk`

`processChunk` appends the chunk to `this.buffer` and, inside a
`try`/`catch`, has `extractEvents` split off the complete lines (keeping
the trailing partial line as the new buffer) and turn them into events,
then runs `handleEvent` on each extracted event in order.  The only
operations that can throw are the three `unescapeText(event.delta...)`
calls inside `handleEvent` (`.replace` on a truthy non-string is a
`TypeError`); such an exception aborts the handling of the remaining
already-extracted events — extraction, and with it `this.buffer` and
`this.jsonBuffer`, has already completed — and the `catch` routes it to
`onError`.  The throw-free fragment of the pipeline is also modelled in
fused form (`stepLine`, `processChunkNT`), with each event handled at
the point of its extraction; `extractEvents` touches only
`this.jsonBuffer` and `handleEvent` never reads or writes it, so on
throw-free inputs the two presentations agree (`processChunk_clean`
below). -/

/-- `s.endsWith(suf)`. -/
def endsWithList (suf s : List Char) : Bool :=
  suf.reverse.isPrefixOf s.reverse

/-- `this.jsonBuffer.replace(/,$/, '')`: drop one trailing comma. -/
def stripTrailingComma (s : List Char) : List Char :=
  if s.getLast? = some ',' then s.dropLast else s

/-- The flush shared by the `tool_use_from_stream:`, timestamp and
label-line branches: if the JSON accumulator is nonempty, try to parse
it (emitting the event on success, silently dropping on failure), then
clear it.  (Two of the branches clear inside the nonempty guard and one
clears unconditionally; the net effect is identical.) -/
def flushJsonBuffer (c : Core) : Core :=
  if c.jsonBuffer = [] then c
  else
    match jsonParse c.jsonBuffer with
    | some ev => handleEvent { c with jsonBuffer := [] } ev
    | none => { c with jsonBuffer := [] }

/-- Does the trimmed line match `/^(session_init|stream_event|tool_use_from_stream):/`? -/
def isLabelLine (t : List Char) : Bool :=
  (cs "session_init:").isPrefixOf t
  || (cs "stream_event:").isPrefixOf t
  || (cs "tool_use_from_stream:").isPrefixOf t

/-- One iteration of the `extractEvents` line loop (with the extracted
event, if any, handled immediately; see the section comment). -/
def stepLine (c : Core) (line : List Char) : Core :=
  let t := jsTrim line
  if t = [] then c
  else if jsIncludes (cs "tool_use_from_stream:") t then flushJsonBuffer c
  else if jsIncludes (cs "input_json_delta:") t then c
  else if t.head? = some '[' ∧ jsIncludes (cs "]") t then flushJsonBuffer c
  else if isLabelLine t then flushJsonBuffer c
  else
    let jb := c.jsonBuffer ++ t
    let c1 := { c with jsonBuffer := jb }
    if endsWithList (cs "\x7d") t || endsWithList (cs "\x7d,") t then
      match jsonParse (stripTrailingComma jb) with
      | some ev => handleEvent { c1 with jsonBuffer := [] } ev
      | none => c1
    else c1

/-- A `FrontendStreamParser` instance: the core plus `this.buffer`. -/
structure StreamParserInst where
  core : Core
  buffer : List Char

/-- A freshly constructed `FrontendStreamParser`. -/
def initInst : StreamParserInst where
  core := initCore
  buffer := []

/-- The throw-free fragment of `processChunk` in fused form: split off
the complete lines and run the extractor/handler over them one line at a
time (see the section comment; `processChunk_clean` below proves this
equal to the faithful `processChunk` on throw-free inputs). -/
def processChunkNT (p : StreamParserInst) (chunk : List Char) : StreamParserInst :=
  let parts := splitOnChar '\n' (p.buffer ++ chunk)
  { core := parts.dropLast.foldl stepLine p.core,
    buffer := (parts.getLast?).getD [] }

/-- The shared flush of the `tool_use_from_stream:`, timestamp and
label branches of `extractEvents`: parse and emit the buffered JSON if
any (dropping it silently on parse failure), then clear the
accumulator. -/
def flushEvents (jb : List Char) : List Json × List Char :=
  if jb = [] then ([], jb)
  else
    match jsonParse jb with
    | some ev => ([ev], [])
    | none => ([], [])

/-- One line of the `extractEvents` loop: the events pushed for this
line and the new `jsonBuffer`. -/
def extractLineEvents (jb line : List Char) : List Json × List Char :=
  let t := jsTrim line
  if t = [] then ([], jb)
  else if jsIncludes (cs "tool_use_from_stream:") t then flushEvents jb
  else if jsIncludes (cs "input_json_delta:") t then ([], jb)
  else if t.head? = some '[' ∧ jsIncludes (cs "]") t then flushEvents jb
  else if isLabelLine t then flushEvents jb
  else
    let jb2 := jb ++ t
    if endsWithList (cs "\x7d") t || endsWithList (cs "\x7d,") t then
      match jsonParse (stripTrailingComma jb2) with
      | some ev => ([ev], [])
      | none => ([], jb2)
    else ([], jb2)

/-- The `extractEvents` line loop: all events in extraction order,
threading the JSON accumulator through the lines. -/
def extractEvents (jb : List Char) : List (List Char) → List Json × List Char
  | [] => ([], jb)
  | line :: rest =>
    let r := extractLineEvents jb line
    let r2 := extractEvents r.2 rest
    (r.1 ++ r2.1, r2.2)

/-- A truthy value that is not a string: exactly the values on which
`unescapeText`'s `text.replace` call throws a `TypeError` (the
`if (!text) return ''` guard admits every falsy value, and strings have
`replace`). -/
def nonStrTruthy : Option Json → Bool
  | some (.str _) => false
  | v => truthyOpt v

/-- Does `handleEvent` throw a `TypeError` on this event?  The only
throwing operations are the three `unescapeText(event.delta...)` calls,
reached when the guarding `delta.type` matches and passing a truthy
non-string field to `.replace`. -/
def evThrows (e : Json) : Bool :=
  typeIs e (cs "content_block_delta") && truthyOpt (getField e (cs "delta")) &&
    (let delta := (getField e (cs "delta")).getD .null
     (deltaTypeIs delta (cs "text_delta")
        && nonStrTruthy (getField delta (cs "text")))
     || (deltaTypeIs delta (cs "thinking_delta")
        && nonStrTruthy (getField delta (cs "thinking")))
     || (deltaTypeIs delta (cs "input_json_delta")
        && nonStrTruthy (getField delta (cs "partial_json"))))

/-- `handleEvent` with its `TypeError` path: when the event reaches one
of the `unescapeText` calls with a truthy non-string field, the `if`
blocks before the delta block (session, message-start) have already run,
the delta block throws before its first mutation, and the blocks after
it do not run; the flag records the escaped exception. -/
def handleEventT (c : Core) (e : Json) : Core × Bool :=
  if evThrows e then (messageStartStep (sessionStep c e) e, true)
  else (handleEvent c e, false)

/-- `events.forEach(event => this.handleEvent(event))` inside
`processChunk`'s `try`: events after a throwing one are not handled, and
the `catch` fires `onError` once with the escaped exception. -/
def handleEventsT (c : Core) : List Json → Core
  | [] => c
  | e :: rest =>
    let r := handleEventT c e
    if r.2 then { r.1 with emitted := r.1.emitted ++ [Emit.error] }
    else handleEventsT r.1 rest

/-- `FrontendStreamParser.processChunk`: append to the buffer, split on
newlines keeping the trailing element as the new buffer (`lines.pop()`),
extract all events of the complete lines, then handle them in order
inside the `try`/`catch`. -/
def processChunk (p : StreamParserInst) (chunk : List Char) : StreamParserInst :=
  let parts := splitOnChar '\n' (p.buffer ++ chunk)
  let ex := extractEvents p.core.jsonBuffer parts.dropLast
  { core := handleEventsT { p.core with jsonBuffer := ex.2 } ex.1,
    buffer := (parts.getLast?).getD [] }

/-- Feed a sequence of chunks through one fresh parser. -/
def runChunks (chunks : List (List Char)) : StreamParserInst :=
  chunks.foldl processChunk initInst

end ICChips

namespace ICChips

/-! ### Concrete scenarios used by the claims -/

/-- Scenario B (claim C6), in the real log format: a `WebSearch` tool
block whose input streams in as two `input_json_delta` fragments that
concatenate to `\x7b"query":"4N35 datasheet"\x7d`. -/
def c6log : List Char := cs
"[2025-01-01T00:00:00.000Z]
stream_event:
\x7b\"type\":\"content_block_start\",\"index\":0,\"content_block\":\x7b\"type\":\"tool_use\",\"id\":\"t1\",\"name\":\"WebSearch\",\"input\":\x7b\x7d\x7d\x7d
[2025-01-01T00:00:01.000Z]
stream_event:
\x7b\"type\":\"content_block_delta\",\"index\":0,\"delta\":\x7b\"type\":\"input_json_delta\",\"partial_json\":\"\x7b\\\"query\\\":\\\"4N35\"\x7d\x7d
[2025-01-01T00:00:02.000Z]
stream_event:
\x7b\"type\":\"content_block_delta\",\"index\":0,\"delta\":\x7b\"type\":\"input_json_delta\",\"partial_json\":\" datasheet\\\"\x7d\"\x7d\x7d
[2025-01-01T00:00:03.000Z]
stream_event:
\x7b\"type\":\"content_block_stop\",\"index\":0\x7d
"

/-- Scenario C (claim C7): as `c6log`, but the accumulated tool input is
the invalid JSON `\x7b"query":"unterminated`. -/
def c7log : List Char := cs
"[2025-01-01T00:00:00.000Z]
stream_event:
\x7b\"type\":\"content_block_start\",\"index\":0,\"content_block\":\x7b\"type\":\"tool_use\",\"id\":\"t1\",\"name\":\"WebSearch\",\"input\":\x7b\x7d\x7d\x7d
[2025-01-01T00:00:01.000Z]
stream_event:
\x7b\"type\":\"content_block_delta\",\"index\":0,\"delta\":\x7b\"type\":\"input_json_delta\",\"partial_json\":\"\x7b\\\"query\\\":\\\"unterm\"\x7d\x7d
[2025-01-01T00:00:02.000Z]
stream_event:
\x7b\"type\":\"content_block_delta\",\"index\":0,\"delta\":\x7b\"type\":\"input_json_delta\",\"partial_json\":\"inated\"\x7d\x7d
[2025-01-01T00:00:03.000Z]
stream_event:
\x7b\"type\":\"content_block_stop\",\"index\":0\x7d
"

/-- Recognizes the `onError` trace entry. -/
def isErrorEmit : Emit → Bool
  | .error => true
  | _ => false

/-- A `content_block_start` event opening a `tool_use` block (id `t1`,
name `B`). -/
def evToolStart : Json :=
  .obj [(cs "type", .str (cs "content_block_start")),
        (cs "content_block", .obj [(cs "type", .str (cs "tool_use")),
                                   (cs "id", .str (cs "t1")),
                                   (cs "name", .str (cs "B"))])]

/-- An `input_json_delta` event carrying the fragment `s`. -/
def evInputDelta (s : List Char) : Json :=
  .obj [(cs "type", .str (cs "content_block_delta")),
        (cs "delta", .obj [(cs "type", .str (cs "input_json_delta")),
                           (cs "partial_json", .str s)])]

/-- A bare `content_block_stop` event. -/
def evBlockStop : Json :=
  .obj [(cs "type", .str (cs "content_block_stop"))]

/-- A `message_delta` event carrying the given `usage` object. -/
def evMessageDelta (usage : Json) : Json :=
  .obj [(cs "type", .str (cs "message_delta")), (cs "usage", usage)]

/-- A `message_start` event carrying the given `usage` object
(scenario E). -/
def evMessageStart (usage : Json) : Json :=
  .obj [(cs "type", .str (cs "message_start")),
        (cs "message", .obj [(cs "id", .str (cs "m1")), (cs "usage", usage)])]

end ICChips

namespace ICChips

set_option maxRecDepth 80000 in
/-- C6: processing, in the real log format, a `content_block_start` for
tool `WebSearch` (id `t1`), two `input_json_delta` events whose
fragments concatenate to `\x7b"query":"4N35 datasheet"\x7d`, and a
`content_block_stop`, yields exactly one ToolUse entry with the parsed
input object, and `toolActivity` lines mentioning `Starting WebSearch`
and `WebSearch completed`. -/
theorem c6_tool_lifecycle :
    (runChunks [c6log]).core.state.toolUses =
      [⟨cs "t1", cs "WebSearch",
        some (.parsed (.obj [(cs "query", .str (cs "4N35 datasheet"))]))⟩]
    ∧ (runChunks [c6log]).core.state.toolActivity.any
        (fun l => jsIncludes (cs "Starting WebSearch") l) = true
    ∧ (runChunks [c6log]).core.state.toolActivity.any
        (fun l => jsIncludes (cs "WebSearch completed") l) = true :=
  ⟨rfl, rfl, rfl⟩

set_option maxRecDepth 80000 in
/-- C7: when the accumulated fragments form invalid JSON
(`\x7b"query":"unterminated`), the closing `content_block_stop` stores the
raw accumulated string as the tool's input, and the `onError` callback
(the only path by which an exception could escape `processChunk`) is
never invoked. -/
theorem c7_invalid_tool_input_stored_raw :
    (runChunks [c7log]).core.state.toolUses =
      [⟨cs "t1", cs "WebSearch", some (.raw (cs "\x7b\"query\":\"unterminated"))⟩]
    ∧ (runChunks [c7log]).core.emitted.any isErrorEmit = false :=
  ⟨rfl, rfl⟩

/-- C8 (counterexample): the substitutions of `unescapeText` DO
re-interpret already-unescaped output.  On the 12-character input
`\\`, the first six substitutions (ending with the `\uXXXX`
decode) produce the two-backslash string — each escape denotes one
backslash — and the final backslash-backslash substitution then consumes
that freshly produced pair, returning a single backslash instead of
two. -/
theorem c8_reinterpretation_counterexample :
    (cs "\\u005C\\u005C").length = 12
    ∧ unescapeStages6 (cs "\\u005C\\u005C") = ['\\', '\\']
    ∧ unescapeText (cs "\\u005C\\u005C") = ['\\'] :=
  ⟨rfl, rfl, rfl⟩

/-- C8 (amended): `unescapeText` decodes the escapes by sequential global
substitutions in the code's order (`\n`, `\"`, `\t`, `\r`, `\/`,
`\uXXXX`, and backslash-backslash last); on the 10-character input
`a\nb\"c\\d` it returns the stated 7-character string.  The original
claim's guarantee that the substitutions never re-interpret
already-unescaped output is refuted by the counterexample: the final
backslash substitution consumes the backslashes produced by the
`\uXXXX` stage. -/
theorem c8_unescape_example :
    (cs "a\\nb\\\"c\\\\d").length = 10
    ∧ unescapeText (cs "a\\nb\\\"c\\\\d") = cs "a\nb\"c\\d"
    ∧ (cs "a\nb\"c\\d").length = 7 :=
  ⟨rfl, rfl, rfl⟩



set_option maxRecDepth 80000 in
/-- C2 (counterexample): an `input_json_delta` arriving outside any tool
block still accumulates into `currentToolInput` (the branch does not
check `isToolActive`), so a following `content_block_stop` re-finalizes
the **last, already completed** ToolUse entry: its input transitions
from raw `"x"` to raw `"y"` — a second write to an already non-null
input. -/
theorem c2_input_rewritten_counterexample :
    (runEvents [evToolStart, evInputDelta (cs "x"), evBlockStop]).state.toolUses =
      [⟨cs "t1", cs "B", some (.raw (cs "x"))⟩]
    ∧ (runEvents [evToolStart, evInputDelta (cs "x"), evBlockStop,
                  evInputDelta (cs "y"), evBlockStop]).state.toolUses =
      [⟨cs "t1", cs "B", some (.raw (cs "y"))⟩] :=
  ⟨rfl, rfl⟩

set_option maxRecDepth 80000 in
/-- C3 (counterexample): `cacheReadTokens` does NOT default to the
previously stored value when absent from the incoming event:
`cache_read_input_tokens || 0` never consults the stored field.  A
`message_delta` storing 5 cache-read tokens followed by one whose usage
lacks the field leaves `cacheReadTokens = 0`, not 5. -/
theorem c3_cache_read_reset_counterexample :
    (runEvents [evMessageDelta (.obj [(cs "cache_read_input_tokens", .num 5)])]).state.usage.cacheReadTokens = 5
    ∧ (runEvents [evMessageDelta (.obj [(cs "cache_read_input_tokens", .num 5)]),
                  evMessageDelta (.obj [(cs "input_tokens", .num 3)])]).state.usage.cacheReadTokens = 0 :=
  ⟨rfl, rfl⟩

end ICChips

namespace ICChips

/-- C10: in `updateUsage` an incoming token count of 0 is treated the
same as an absent field — `usage.input_tokens || stored || 0` falls
through to the stored value when the incoming count is `0` or missing —
so an explicit zero never overwrites a previously stored count
(identical code in `api.ts` and `frontend-stream-parser.js`). -/
theorem c10_zero_treated_as_absent (u : Usage) (j : Json) :
    ((getField j (cs "input_tokens") = none ∨ getField j (cs "input_tokens") = some (.num 0)) →
      (updateUsage u j).inputTokens = u.inputTokens)
    ∧ ((getField j (cs "output_tokens") = none ∨ getField j (cs "output_tokens") = some (.num 0)) →
      (updateUsage u j).outputTokens = u.outputTokens) := by
  constructor
  · rintro (h | h) <;> simp [updateUsage, h]
  · rintro (h | h) <;> simp [updateUsage, h]

/-- Witness for C10: with 7/8 tokens stored, an incoming usage object
carrying an explicit `input_tokens: 0` (and no `output_tokens`) leaves
both stored values untouched. -/
theorem c10_zero_treated_as_absent_witness :
    (updateUsage ⟨7, 8, 15, 0⟩ (.obj [(cs "input_tokens", .num 0)])).inputTokens = 7
    ∧ (updateUsage ⟨7, 8, 15, 0⟩ (.obj [(cs "input_tokens", .num 0)])).outputTokens = 8 :=
  ⟨(c10_zero_treated_as_absent ⟨7, 8, 15, 0⟩ _).1 (Or.inr rfl),
   (c10_zero_treated_as_absent ⟨7, 8, 15, 0⟩ _).2 (Or.inl rfl)⟩

/-- The six recognized `event.type` values. -/
def recognizedTypes : List (List Char) :=
  [cs "message_start", cs "content_block_start", cs "content_block_delta",
   cs "content_block_stop", cs "message_delta", cs "message_stop"]

/-- C9: an event with no `session_id` field, whose `type` is none of the
six recognized values, and with no recognized `delta.type`, leaves every
field of the parser (view model, accumulators, flags) unchanged and
fires no callback: unknown events are silently ignored.  (The
`delta.type` condition is part of the claim's wording; it is already
implied by `type ≠ content_block_delta`.) -/
theorem c9_unknown_events_ignored (c : Core) (e : Json)
    (hsid : getField e (cs "session_id") = none)
    (htype : typeAmong e recognizedTypes = false)
    (_hdelta : ∀ d, getField e (cs "delta") = some d →
      deltaTypeIs d (cs "text_delta") = false ∧ deltaTypeIs d (cs "thinking_delta") = false
      ∧ deltaTypeIs d (cs "input_json_delta") = false) :
    handleEvent c e = c := by
  simp [typeAmong, recognizedTypes, List.any, Bool.or_eq_false_iff] at htype
  obtain ⟨h1, h2, h3, h4, h5, h6⟩ := htype
  simp [handleEvent, sessionStep, messageStartStep, deltaStep, blockStartStep,
        blockStopStep, usageStep, messageStopStep, hsid, truthyOpt,
        h1, h2, h3, h4, h5, h6]

/-- An event of an unrecognized type. -/
def evUnknown : Json := .obj [(cs "type", .str (cs "pizza"))]

/-- Witness for C9: the event `\x7b"type":"pizza"\x7d` leaves a fresh parser
identical. -/
theorem c9_unknown_events_ignored_witness : handleEvent initCore evUnknown = initCore :=
  c9_unknown_events_ignored initCore evUnknown rfl rfl (fun _ h => nomatch h)

end ICChips

namespace ICChips

/-- Truthiness of any object value. -/
lemma truthy_obj (fs : List (List Char × Json)) : truthy (.obj fs) = true := rfl

/-- C3 (amended): after a usage-bearing event (`message_delta` with
`usage`, or `message_start` with `message.usage`), `inputTokens` and
`outputTokens` equal the incoming count when that field is present with
a nonzero value and keep the previously stored value otherwise (absent
OR zero — see the counterexample for why "present" alone is wrong for
zero, and claim C10); `cacheReadTokens` equals the incoming count when
present and `0` otherwise (it does NOT default to the stored value);
`totalTokens` is always recomputed as `inputTokens + outputTokens`; and
the concrete scenario E holds: usage `(10, 0)` then `(output: 25)`
yields `(10, 25, total 35)`. -/
theorem c3_usage_update_rule :
    (∀ (c : Core) (u : Json), truthy u = true →
      ((handleEvent c (evMessageDelta u)).state.usage.inputTokens =
          (match getField u (cs "input_tokens") with
           | some (.num n) => if n = 0 then c.state.usage.inputTokens else n
           | _ => c.state.usage.inputTokens)
        ∧ (handleEvent c (evMessageDelta u)).state.usage.outputTokens =
          (match getField u (cs "output_tokens") with
           | some (.num n) => if n = 0 then c.state.usage.outputTokens else n
           | _ => c.state.usage.outputTokens)
        ∧ (handleEvent c (evMessageDelta u)).state.usage.cacheReadTokens =
          (match getField u (cs "cache_read_input_tokens") with
           | some (.num n) => n
           | _ => 0)
        ∧ (handleEvent c (evMessageDelta u)).state.usage.totalTokens =
            (handleEvent c (evMessageDelta u)).state.usage.inputTokens +
            (handleEvent c (evMessageDelta u)).state.usage.outputTokens
        ∧ (handleEvent c (evMessageStart u)).state.usage =
            (handleEvent c (evMessageDelta u)).state.usage))
    ∧ (runEvents
        [evMessageStart (.obj [(cs "input_tokens", .num 10), (cs "output_tokens", .num 0)]),
         evMessageDelta (.obj [(cs "output_tokens", .num 25)])]).state.usage =
        ⟨10, 25, 35, 0⟩ := by
  constructor
  · intro c u hu
    have hd : (handleEvent c (evMessageDelta u)).state.usage = updateUsage c.state.usage u := by
      simp [handleEvent, sessionStep, messageStartStep, deltaStep, blockStartStep,
            blockStopStep, usageStep, messageStopStep, evMessageDelta, typeIs,
            getField, truthyOpt, deltaTypeIs, cs, hu]
    have hs : (handleEvent c (evMessageStart u)).state.usage = updateUsage c.state.usage u := by
      simp [handleEvent, sessionStep, messageStartStep, deltaStep, blockStartStep,
            blockStopStep, usageStep, messageStopStep, evMessageStart, typeIs,
            getField, truthyOpt, truthy_obj, deltaTypeIs, cs, hu]
    refine ⟨?_, ?_, ?_, ?_, ?_⟩
    · rw [hd]; simp [updateUsage]
    · rw [hd]; simp [updateUsage]
    · rw [hd]; simp [updateUsage]
    · rw [hd]; simp [updateUsage]
    · rw [hd, hs]
  · rfl

/-- Witness for C3 (amended): a `message_delta` carrying
`input_tokens: 4` stores 4 input tokens. -/
theorem c3_usage_update_rule_witness :
    (handleEvent initCore (evMessageDelta (.obj [(cs "input_tokens", .num 4)]))).state.usage.inputTokens = 4 := by
  have h := (c3_usage_update_rule.1 initCore (.obj [(cs "input_tokens", .num 4)]) rfl).1
  simpa using h

end ICChips

namespace ICChips

/-- Growth (by length) of the three append-only strings of claim C4. -/
def SGrow (c c' : Core) : Prop :=
  c.state.assistantText.length ≤ c'.state.assistantText.length
  ∧ c.state.thinking.length ≤ c'.state.thinking.length
  ∧ c.state.fullToolCommand.length ≤ c'.state.fullToolCommand.length

lemma sgrowRefl (c : Core) : SGrow c c := ⟨le_refl _, le_refl _, le_refl _⟩

lemma sgrowTrans {a b c : Core} (h1 : SGrow a b) (h2 : SGrow b c) : SGrow a c :=
  ⟨le_trans h1.1 h2.1, le_trans h1.2.1 h2.2.1, le_trans h1.2.2 h2.2.2⟩

/-- Equality of the three strings (most steps do not touch them). -/
def SEq (c c' : Core) : Prop :=
  c'.state.assistantText = c.state.assistantText
  ∧ c'.state.thinking = c.state.thinking
  ∧ c'.state.fullToolCommand = c.state.fullToolCommand

lemma seqRefl (c : Core) : SEq c c := ⟨rfl, rfl, rfl⟩

lemma seqTrans {a b c : Core} (h1 : SEq a b) (h2 : SEq b c) : SEq a c :=
  ⟨h2.1.trans h1.1, h2.2.1.trans h1.2.1, h2.2.2.trans h1.2.2⟩

lemma seqToSGrow {c c' : Core} (h : SEq c c') : SGrow c c' :=
  ⟨le_of_eq (congrArg List.length h.1.symm), le_of_eq (congrArg List.length h.2.1.symm),
   le_of_eq (congrArg List.length h.2.2.symm)⟩

lemma pushTA_seq (c : Core) (l : List Char) : SEq c (pushTA c l) := ⟨rfl, rfl, rfl⟩

lemma pushWSA_seq (c : Core) (l : List Char) : SEq c (pushWSA c l) := ⟨rfl, rfl, rfl⟩

lemma pushTAUnless_seq (c : Core) (marker l : List Char) : SEq c (pushTAUnless c marker l) := by
  unfold pushTAUnless; repeat' split
  all_goals exact ⟨rfl, rfl, rfl⟩

lemma sniffQuery_seq (c : Core) : SEq c (sniffQuery c) := by
  unfold sniffQuery; split
  · exact pushTAUnless_seq _ _ _
  · exact seqRefl _

lemma sniffUrl_seq (c : Core) : SEq c (sniffUrl c) := by
  unfold sniffUrl; split
  · exact pushTAUnless_seq _ _ _
  · exact seqRefl _

lemma sniffPrompt_seq (c : Core) : SEq c (sniffPrompt c) := by
  unfold sniffPrompt; split
  · exact pushTAUnless_seq _ _ _
  · exact seqRefl _

lemma sniffParams_seq (c : Core) : SEq c (sniffParams c) := by
  unfold sniffParams; split
  · exact seqTrans (seqTrans (sniffQuery_seq c) (sniffUrl_seq _)) (sniffPrompt_seq _)
  · exact seqRefl _

lemma wsProcessing_seq (c : Core) (command : List Char) : SEq c (wsProcessing c command) := by
  unfold wsProcessing; split
  · exact pushWSA_seq _ _
  · exact seqRefl _

lemma wsNarrate_seq (c : Core) (command : List Char) : SEq c (wsNarrate c command) := by
  unfold wsNarrate; repeat' split
  all_goals first
    | exact seqRefl _
    | exact pushWSA_seq _ _
    | exact wsProcessing_seq _ _

/-- `detectPush` never changes the three strings. -/
lemma detectPush_seq (c : Core) (m : List Char) : SEq c (detectPush c m) := by
  unfold detectPush; split <;> exact ⟨rfl, rfl, rfl⟩

lemma detectFold_seq (l : List (List Char)) (c : Core) : SEq c (l.foldl detectPush c) := by
  induction l generalizing c with
  | nil => exact seqRefl _
  | cons m rest ih =>
    simp only [List.foldl_cons]
    exact seqTrans (detectPush_seq c m) (ih _)

/-- Table detection never changes the three strings. -/
lemma detect_seq (c : Core) : SEq c (detectAndParseTables c) := by
  unfold detectAndParseTables
  dsimp only
  split
  · exact detectFold_seq _ _
  · exact seqRefl _

lemma sessionStep_seq (c : Core) (e : Json) : SEq c (sessionStep c e) := by
  unfold sessionStep; split <;> exact ⟨rfl, rfl, rfl⟩

lemma messageStartStep_seq (c : Core) (e : Json) : SEq c (messageStartStep c e) := by
  unfold messageStartStep; dsimp only; repeat' split
  all_goals exact ⟨rfl, rfl, rfl⟩

lemma blockStartStep_seq (c : Core) (e : Json) : SEq c (blockStartStep c e) := by
  unfold blockStartStep pushWSA; dsimp only; repeat' split
  all_goals exact ⟨rfl, rfl, rfl⟩

lemma stopToolNarrate_seq (c : Core) : SEq c (stopToolNarrate c) := by
  unfold stopToolNarrate; split
  · exact pushTA_seq _ _
  · exact seqRefl _

lemma stopWsNarrate_seq (c : Core) : SEq c (stopWsNarrate c) := by
  unfold stopWsNarrate; dsimp only; split
  · exact ⟨rfl, rfl, rfl⟩
  · exact seqRefl _

lemma stopClear_seq (c : Core) : SEq c (stopClear c) := ⟨rfl, rfl, rfl⟩

lemma blockStopFinalize_seq (c : Core) : SEq c (blockStopFinalize c) := by
  unfold blockStopFinalize; dsimp only
  refine seqTrans ?_ (stopClear_seq _)
  refine seqTrans ?_ (stopWsNarrate_seq _)
  refine seqTrans ?_ (stopToolNarrate_seq _)
  exact ⟨rfl, rfl, rfl⟩

lemma blockStopStep_seq (c : Core) (e : Json) : SEq c (blockStopStep c e) := by
  unfold blockStopStep; repeat' split
  all_goals first
    | exact seqRefl _
    | exact blockStopFinalize_seq _

lemma usageStep_seq (c : Core) (e : Json) : SEq c (usageStep c e) := by
  unfold usageStep; split <;> exact ⟨rfl, rfl, rfl⟩

lemma messageStopStep_seq (c : Core) (e : Json) : SEq c (messageStopStep c e) := by
  unfold messageStopStep; split <;> exact ⟨rfl, rfl, rfl⟩

lemma textDelta_sgrow (c : Core) (delta : Json) : SGrow c (textDelta c delta) := by
  unfold textDelta
  dsimp only
  refine sgrowTrans (b :=
    { c with state := { c.state with
        assistantText := c.state.assistantText ++ unescapeText (getStr delta (cs "text")),
        chronologicalEvents := c.state.chronologicalEvents ++
          [ChronoEvent.text (unescapeText (getStr delta (cs "text")))] } }) ?_ ?_
  · exact ⟨by simp, le_refl _, le_refl _⟩
  · exact seqToSGrow (detect_seq _)

lemma thinkingDelta_sgrow (c : Core) (delta : Json) : SGrow c (thinkingDelta c delta) := by
  unfold thinkingDelta
  exact ⟨le_refl _, by simp, le_refl _⟩

lemma inputDeltaAccum_sgrow (c : Core) (command : List Char) :
    SGrow c (inputDeltaAccum c command) := by
  unfold inputDeltaAccum
  exact ⟨le_refl _, le_refl _, by simp⟩

lemma inputJsonDelta_sgrow (c : Core) (delta : Json) : SGrow c (inputJsonDelta c delta) := by
  unfold inputJsonDelta
  dsimp only
  have h1 := inputDeltaAccum_sgrow c (unescapeText (getStr delta (cs "partial_json")))
  have h2 := seqToSGrow (sniffParams_seq (inputDeltaAccum c (unescapeText (getStr delta (cs "partial_json")))))
  have h3 := seqToSGrow (wsNarrate_seq
    (sniffParams (inputDeltaAccum c (unescapeText (getStr delta (cs "partial_json")))))
    (unescapeText (getStr delta (cs "partial_json"))))
  have h4 : SEq (wsNarrate
      (sniffParams (inputDeltaAccum c (unescapeText (getStr delta (cs "partial_json")))))
      (unescapeText (getStr delta (cs "partial_json"))))
      (inputDeltaFinish (wsNarrate
        (sniffParams (inputDeltaAccum c (unescapeText (getStr delta (cs "partial_json")))))
        (unescapeText (getStr delta (cs "partial_json"))))
        (unescapeText (getStr delta (cs "partial_json")))) := ⟨rfl, rfl, rfl⟩
  exact sgrowTrans (sgrowTrans (sgrowTrans h1 h2) h3) (seqToSGrow h4)

lemma sgrow_ite (P : Prop) [Decidable P] (f : Core → Core) (x : Core)
    (hf : ∀ y, SGrow y (f y)) : SGrow x (if P then f x else x) := by
  split
  · exact hf x
  · exact sgrowRefl x

lemma deltaStep_sgrow (c : Core) (e : Json) : SGrow c (deltaStep c e) := by
  unfold deltaStep
  split
  · dsimp only
    refine sgrowTrans (sgrowTrans
      (sgrow_ite _ (fun y => textDelta y ((getField e (cs "delta")).getD .null)) _
        (fun y => textDelta_sgrow y _))
      (sgrow_ite _ (fun y => thinkingDelta y ((getField e (cs "delta")).getD .null)) _
        (fun y => thinkingDelta_sgrow y _)))
      (sgrow_ite _ (fun y => inputJsonDelta y ((getField e (cs "delta")).getD .null)) _
        (fun y => inputJsonDelta_sgrow y _))
  · exact sgrowRefl _

lemma handleEvent_sgrow (c : Core) (e : Json) : SGrow c (handleEvent c e) := by
  unfold handleEvent
  refine sgrowTrans (seqToSGrow (sessionStep_seq c e)) ?_
  refine sgrowTrans (seqToSGrow (messageStartStep_seq _ e)) ?_
  refine sgrowTrans (deltaStep_sgrow _ e) ?_
  refine sgrowTrans (seqToSGrow (blockStartStep_seq _ e)) ?_
  refine sgrowTrans (seqToSGrow (blockStopStep_seq _ e)) ?_
  refine sgrowTrans (seqToSGrow (usageStep_seq _ e)) ?_
  exact seqToSGrow (messageStopStep_seq _ e)

lemma jsonBufferSet_seq (c : Core) (jb : List Char) : SEq c { c with jsonBuffer := jb } :=
  ⟨rfl, rfl, rfl⟩

lemma flushJsonBuffer_sgrow (c : Core) : SGrow c (flushJsonBuffer c) := by
  unfold flushJsonBuffer; repeat' split
  · exact sgrowRefl _
  · exact sgrowTrans (seqToSGrow (jsonBufferSet_seq _ _)) (handleEvent_sgrow _ _)
  · exact seqToSGrow (jsonBufferSet_seq _ _)

lemma stepLine_sgrow (c : Core) (line : List Char) : SGrow c (stepLine c line) := by
  unfold stepLine; dsimp only; repeat' split
  all_goals
    first
      | exact flushJsonBuffer_sgrow _
      | exact sgrowTrans (seqToSGrow (jsonBufferSet_seq _ _))
          (sgrowTrans (seqToSGrow (jsonBufferSet_seq _ _)) (handleEvent_sgrow _ _))
      | exact seqToSGrow (jsonBufferSet_seq _ _)

lemma foldl_stepLine_sgrow (l : List (List Char)) (c : Core) :
    SGrow c (l.foldl stepLine c) := by
  induction l generalizing c with
  | nil => exact sgrowRefl _
  | cons x rest ih =>
    simp only [List.foldl_cons]
    exact sgrowTrans (stepLine_sgrow c x) (ih _)

lemma processChunkNT_sgrow (p : StreamParserInst) (chunk : List Char) :
    SGrow p.core (processChunkNT p chunk).core := by
  unfold processChunkNT; dsimp only
  exact foldl_stepLine_sgrow _ _

lemma handleEventT_sgrow (c : Core) (e : Json) : SGrow c (handleEventT c e).1 := by
  unfold handleEventT
  by_cases h : evThrows e = true
  · rw [if_pos h]
    exact sgrowTrans (seqToSGrow (sessionStep_seq c e)) (seqToSGrow (messageStartStep_seq _ e))
  · rw [if_neg h]
    exact handleEvent_sgrow c e

lemma handleEventsT_sgrow (es : List Json) : ∀ c : Core, SGrow c (handleEventsT c es) := by
  induction es with
  | nil => intro c; exact sgrowRefl _
  | cons e rest ih =>
    intro c
    unfold handleEventsT
    dsimp only
    split
    · exact sgrowTrans (handleEventT_sgrow c e) (seqToSGrow ⟨rfl, rfl, rfl⟩)
    · exact sgrowTrans (handleEventT_sgrow c e) (ih _)

lemma processChunk_sgrow (p : StreamParserInst) (chunk : List Char) :
    SGrow p.core (processChunk p chunk).core := by
  unfold processChunk; dsimp only
  exact sgrowTrans (seqToSGrow (jsonBufferSet_seq _ _)) (handleEventsT_sgrow _ _)

lemma foldl_processChunk_sgrow (l : List (List Char)) (p : StreamParserInst) :
    SGrow p.core (l.foldl processChunk p).core := by
  induction l generalizing p with
  | nil => exact sgrowRefl _
  | cons x rest ih =>
    simp only [List.foldl_cons]
    exact sgrowTrans (processChunk_sgrow p x) (ih _)

/-- C4: `assistantText`, `thinking` and `fullToolCommand` are append-only
across any sequence of `processChunk` calls on one parser: after
processing `chunks ++ more` each of the three strings is at least as
long as after processing the prefix `chunks` alone (every prefix is of
this form, so the three fields are never truncated). -/
theorem c4_append_only_monotonicity (chunks more : List (List Char)) :
    (runChunks chunks).core.state.assistantText.length
      ≤ (runChunks (chunks ++ more)).core.state.assistantText.length
    ∧ (runChunks chunks).core.state.thinking.length
      ≤ (runChunks (chunks ++ more)).core.state.thinking.length
    ∧ (runChunks chunks).core.state.fullToolCommand.length
      ≤ (runChunks (chunks ++ more)).core.state.fullToolCommand.length := by
  unfold runChunks
  rw [List.foldl_append]
  exact foldl_processChunk_sgrow more _

end ICChips

namespace ICChips

/-! ### Well-formed tool lifecycles (claim C2) -/

/-- Is `e` the start of a `tool_use` content block (the exact condition
of the `content_block_start` branch)? -/
def isToolStartEvt (e : Json) : Bool :=
  typeIs e (cs "content_block_start") && truthyOpt (getField e (cs "content_block"))
    && deltaTypeIs ((getField e (cs "content_block")).getD .null) (cs "tool_use")

/-- Is `e` an `input_json_delta` event (the exact condition of that
sub-branch)? -/
def isInputDeltaEvt (e : Json) : Bool :=
  typeIs e (cs "content_block_delta") && truthyOpt (getField e (cs "delta"))
    && deltaTypeIs ((getField e (cs "delta")).getD .null) (cs "input_json_delta")

/-- Is `e` a `content_block_stop` event? -/
def isStopEvt (e : Json) : Bool := typeIs e (cs "content_block_stop")

/-- The unescaped `partial_json` fragment carried by an
`input_json_delta` event. -/
def evtFragment (e : Json) : List Char :=
  unescapeText (getStr ((getField e (cs "delta")).getD .null) (cs "partial_json"))

/-- Scanner state for well-formedness: is a tool block open, and has its
accumulated input become nonempty. -/
structure ToolScan where
  openBlock : Bool
  accNE : Bool

/-- One well-formedness step: tool starts only outside a block, input
deltas only inside, a stop inside requires nonempty accumulated input
(otherwise the entry's `input` would never be set); stops outside a
block (e.g. closing text blocks) and all other events are free. -/
def wfStep (st : ToolScan) (e : Json) : Option ToolScan :=
  if isToolStartEvt e then
    (if st.openBlock then none else some ⟨true, false⟩)
  else if isInputDeltaEvt e then
    (if st.openBlock then some ⟨true, st.accNE || decide (evtFragment e ≠ [])⟩ else none)
  else if isStopEvt e then
    (if st.openBlock then (if st.accNE then some ⟨false, false⟩ else none) else some st)
  else some st

/-- Scan a whole event list. -/
def wfScan : ToolScan → List Json → Option ToolScan
  | st, [] => some st
  | st, e :: es =>
    match wfStep st e with
    | some st' => wfScan st' es
    | none => none

/-- A well-formed event sequence: every `input_json_delta` and every
closing `content_block_stop` lies inside a tool block, every opened
block accumulates a nonempty input before it closes, and blocks do not
nest. -/
def toolWF (es : List Json) : Bool := (wfScan ⟨false, false⟩ es).isSome

/-- The fields of the parser that the tool lifecycle argument tracks. -/
def TEq (c c' : Core) : Prop :=
  c'.state.toolUses = c.state.toolUses
  ∧ c'.currentToolInput = c.currentToolInput
  ∧ c'.isToolActive = c.isToolActive

lemma teqRefl (c : Core) : TEq c c := ⟨rfl, rfl, rfl⟩

lemma teqTrans {a b c : Core} (h1 : TEq a b) (h2 : TEq b c) : TEq a c :=
  ⟨h2.1.trans h1.1, h2.2.1.trans h1.2.1, h2.2.2.trans h1.2.2⟩

lemma sessionStep_teq (c : Core) (e : Json) : TEq c (sessionStep c e) := by
  unfold sessionStep; split <;> exact ⟨rfl, rfl, rfl⟩

lemma messageStartStep_teq (c : Core) (e : Json) : TEq c (messageStartStep c e) := by
  unfold messageStartStep; dsimp only; repeat' split
  all_goals exact ⟨rfl, rfl, rfl⟩

lemma usageStep_teq (c : Core) (e : Json) : TEq c (usageStep c e) := by
  unfold usageStep; split <;> exact ⟨rfl, rfl, rfl⟩

lemma messageStopStep_teq (c : Core) (e : Json) : TEq c (messageStopStep c e) := by
  unfold messageStopStep; split <;> exact ⟨rfl, rfl, rfl⟩

lemma detectPush_teq (c : Core) (m : List Char) : TEq c (detectPush c m) := by
  unfold detectPush; split <;> exact ⟨rfl, rfl, rfl⟩

lemma detectFold_teq (l : List (List Char)) (c : Core) : TEq c (l.foldl detectPush c) := by
  induction l generalizing c with
  | nil => exact teqRefl _
  | cons m rest ih =>
    simp only [List.foldl_cons]
    exact teqTrans (detectPush_teq c m) (ih _)

lemma detect_teq (c : Core) : TEq c (detectAndParseTables c) := by
  unfold detectAndParseTables; dsimp only; split
  · exact detectFold_teq _ _
  · exact teqRefl _

lemma textDelta_teq (c : Core) (delta : Json) : TEq c (textDelta c delta) := by
  unfold textDelta; dsimp only
  refine teqTrans (b :=
    { c with state := { c.state with
        assistantText := c.state.assistantText ++ unescapeText (getStr delta (cs "text")),
        chronologicalEvents := c.state.chronologicalEvents ++
          [ChronoEvent.text (unescapeText (getStr delta (cs "text")))] } }) ⟨rfl, rfl, rfl⟩ ?_
  refine teqTrans (detect_teq _) ⟨rfl, rfl, rfl⟩

lemma thinkingDelta_teq (c : Core) (delta : Json) : TEq c (thinkingDelta c delta) :=
  ⟨rfl, rfl, rfl⟩

lemma pushTAUnless_teq (c : Core) (marker l : List Char) : TEq c (pushTAUnless c marker l) := by
  unfold pushTAUnless pushTA; repeat' split
  all_goals exact ⟨rfl, rfl, rfl⟩

lemma sniffQuery_teq (c : Core) : TEq c (sniffQuery c) := by
  unfold sniffQuery; split
  · exact pushTAUnless_teq _ _ _
  · exact teqRefl _

lemma sniffUrl_teq (c : Core) : TEq c (sniffUrl c) := by
  unfold sniffUrl; split
  · exact pushTAUnless_teq _ _ _
  · exact teqRefl _

lemma sniffPrompt_teq (c : Core) : TEq c (sniffPrompt c) := by
  unfold sniffPrompt; split
  · exact pushTAUnless_teq _ _ _
  · exact teqRefl _

lemma sniffParams_teq (c : Core) : TEq c (sniffParams c) := by
  unfold sniffParams; split
  · exact teqTrans (teqTrans (sniffQuery_teq c) (sniffUrl_teq _)) (sniffPrompt_teq _)
  · exact teqRefl _

lemma wsProcessing_teq (c : Core) (command : List Char) : TEq c (wsProcessing c command) := by
  unfold wsProcessing pushWSA; repeat' split
  all_goals exact ⟨rfl, rfl, rfl⟩

lemma wsNarrate_teq (c : Core) (command : List Char) : TEq c (wsNarrate c command) := by
  unfold wsNarrate pushWSA; repeat' split
  all_goals
    first
      | exact teqRefl _
      | exact ⟨rfl, rfl, rfl⟩
      | exact wsProcessing_teq _ _

lemma inputDeltaFinish_teq (c : Core) (command : List Char) :
    TEq c (inputDeltaFinish c command) := ⟨rfl, rfl, rfl⟩

/-- The tool-view effect of `inputJsonDelta`: only the input accumulator
changes, by appending the unescaped fragment. -/
lemma inputJsonDelta_effect (c : Core) (delta : Json) :
    (inputJsonDelta c delta).state.toolUses = c.state.toolUses
    ∧ (inputJsonDelta c delta).currentToolInput
        = c.currentToolInput ++ unescapeText (getStr delta (cs "partial_json"))
    ∧ (inputJsonDelta c delta).isToolActive = c.isToolActive := by
  unfold inputJsonDelta; dsimp only
  have h1 : TEq (inputDeltaAccum c (unescapeText (getStr delta (cs "partial_json"))))
      (inputDeltaFinish (wsNarrate (sniffParams (inputDeltaAccum c
        (unescapeText (getStr delta (cs "partial_json")))))
        (unescapeText (getStr delta (cs "partial_json"))))
        (unescapeText (getStr delta (cs "partial_json")))) :=
    teqTrans (teqTrans (sniffParams_teq _)
      (wsNarrate_teq _ (unescapeText (getStr delta (cs "partial_json")))))
      (inputDeltaFinish_teq _ _)
  exact ⟨h1.1, h1.2.1, h1.2.2⟩

end ICChips

namespace ICChips

/-- An event's `type` is a single value: `typeIs` holds for at most one
string. -/
lemma typeIs_unique {e : Json} {a b : List Char} (h : typeIs e a = true) (hne : a ≠ b) :
    typeIs e b = false := by
  unfold typeIs at h ⊢
  split at h
  · rename_i s heq
    simp only [decide_eq_true_eq] at h
    subst h
    simp [hne]
  · exact absurd h (by simp)

lemma deltaTypeIs_unique {d : Json} {a b : List Char} (h : deltaTypeIs d a = true)
    (hne : a ≠ b) : deltaTypeIs d b = false := by
  unfold deltaTypeIs at h ⊢
  split at h
  · rename_i s heq
    simp only [decide_eq_true_eq] at h
    subst h
    simp [hne]
  · exact absurd h (by simp)

/-- Compose through an optional transformation (used for the three
`delta.type` sub-branches). -/
lemma teq_ite (P : Prop) [Decidable P] (f : Core → Core) (x : Core)
    (hf : ∀ y, TEq y (f y)) : TEq x (if P then f x else x) := by
  split
  · exact hf x
  · exact teqRefl x

/-- `blockStartStep` is the identity unless the event starts a tool
block. -/
lemma blockStartStep_id (c : Core) (e : Json) (h : isToolStartEvt e = false) :
    blockStartStep c e = c := by
  unfold isToolStartEvt at h
  unfold blockStartStep
  simp only [Bool.and_eq_false_iff] at h
  rcases h with (h | h) | h
  · rcases h2 : truthyOpt (getField e (cs "content_block")) with _ | _ <;> simp [h, h2]
  · simp [h]
  · split
    · dsimp only
      rw [h]
      simp
    · rfl

/-- `blockStopStep` is the identity unless the event is a stop. -/
lemma blockStopStep_id (c : Core) (e : Json) (h : isStopEvt e = false) :
    blockStopStep c e = c := by
  unfold isStopEvt at h
  unfold blockStopStep
  simp [h]

/-- `deltaStep` keeps the tool view whenever the event is not an
`input_json_delta`. -/
lemma deltaStep_teq (c : Core) (e : Json) (h : isInputDeltaEvt e = false) :
    TEq c (deltaStep c e) := by
  unfold isInputDeltaEvt at h
  unfold deltaStep
  split
  · rename_i hcond
    simp only [Bool.and_eq_false_iff] at h
    dsimp only
    have hin : deltaTypeIs ((getField e (cs "delta")).getD .null) (cs "input_json_delta") = false := by
      rcases h with (h | h) | h
      · exact absurd hcond.1 (by simp [h])
      · exact absurd hcond.2 (by simp [h])
      · exact h
    rw [hin]
    simp only [Bool.false_eq_true, if_false]
    exact teqTrans
      (teq_ite _ (fun y => textDelta y ((getField e (cs "delta")).getD .null)) c
        (fun y => textDelta_teq y _))
      (teq_ite _ (fun y => thinkingDelta y ((getField e (cs "delta")).getD .null)) _
        (fun y => thinkingDelta_teq y _))
  · exact teqRefl _

/-- The tool-view effect of `deltaStep` on an `input_json_delta` event. -/
lemma deltaStep_input_effect (c : Core) (e : Json) (h : isInputDeltaEvt e = true) :
    (deltaStep c e).state.toolUses = c.state.toolUses
    ∧ (deltaStep c e).currentToolInput = c.currentToolInput ++ evtFragment e
    ∧ (deltaStep c e).isToolActive = c.isToolActive := by
  unfold isInputDeltaEvt at h
  simp only [Bool.and_eq_true] at h
  obtain ⟨⟨h1, h2⟩, h3⟩ := h
  unfold deltaStep
  rw [if_pos ⟨h1, h2⟩]
  dsimp only
  rw [deltaTypeIs_unique (b := cs "text_delta") h3 (by decide),
      deltaTypeIs_unique (b := cs "thinking_delta") h3 (by decide)]
  simp only [Bool.false_eq_true, if_false, if_pos h3]
  exact inputJsonDelta_effect c _

/-- The tool-view effect of `blockStartStep` on a tool-start event: a
fresh entry with null input is appended, the accumulator is cleared and
the tool-active flag set. -/
lemma blockStartStep_effect (c : Core) (e : Json) (h : isToolStartEvt e = true) :
    (∃ tid tname, (blockStartStep c e).state.toolUses
        = c.state.toolUses ++ [⟨tid, tname, none⟩])
    ∧ (blockStartStep c e).currentToolInput = []
    ∧ (blockStartStep c e).isToolActive = true := by
  unfold isToolStartEvt at h
  simp only [Bool.and_eq_true] at h
  obtain ⟨⟨h1, h2⟩, h3⟩ := h
  unfold blockStartStep
  rw [if_pos ⟨h1, h2⟩]
  dsimp only
  rw [if_pos h3]
  dsimp only
  constructor
  · refine ⟨getStr ((getField e (cs "content_block")).getD .null) (cs "id"),
      getStr ((getField e (cs "content_block")).getD .null) (cs "name"), ?_⟩
    split <;> rfl
  · constructor
    · split <;> rfl
    · split <;> rfl

end ICChips

namespace ICChips

lemma stopToolNarrate_teq (c : Core) : TEq c (stopToolNarrate c) := by
  unfold stopToolNarrate pushTA; split
  · exact ⟨rfl, rfl, rfl⟩
  · exact teqRefl _

lemma stopWsNarrate_teq (c : Core) : TEq c (stopWsNarrate c) := by
  unfold stopWsNarrate pushWSA; dsimp only; split
  · exact ⟨rfl, rfl, rfl⟩
  · exact teqRefl _

/-- The effect of the stop-branch body: the last entry's input becomes
`some inp`, the accumulator clears, the active flag drops. -/
lemma blockStopFinalize_effect (c : Core) :
    (∃ inp, (blockStopFinalize c).state.toolUses
        = modifyLast (fun t => { t with input := some inp }) c.state.toolUses)
    ∧ (blockStopFinalize c).currentToolInput = []
    ∧ (blockStopFinalize c).isToolActive = false := by
  unfold blockStopFinalize
  dsimp only
  refine ⟨⟨(match jsonParse c.currentToolInput with
            | some j => ToolInput.parsed j
            | none => ToolInput.raw c.currentToolInput), ?_⟩, rfl, rfl⟩
  exact (teqTrans (stopToolNarrate_teq _) (stopWsNarrate_teq _)).1

lemma modifyLast_cons_cons (f : ToolUse → ToolUse) (t u : ToolUse) (rest : List ToolUse) :
    modifyLast f (t :: u :: rest) = t :: modifyLast f (u :: rest) := rfl

lemma modifyLast_length (f : ToolUse → ToolUse) (l : List ToolUse) :
    (modifyLast f l).length = l.length := by
  induction l with
  | nil => rfl
  | cons t rest ih =>
    cases rest with
    | nil => rfl
    | cons u rest2 =>
      rw [modifyLast_cons_cons]
      simpa using ih

lemma modifyLast_getElem?_lt (f : ToolUse → ToolUse) (l : List ToolUse) (i : Nat)
    (h : i + 1 < l.length) : (modifyLast f l)[i]? = l[i]? := by
  induction l generalizing i with
  | nil => rfl
  | cons t rest ih =>
    cases rest with
    | nil => simp at h
    | cons u rest2 =>
      rw [modifyLast_cons_cons]
      cases i with
      | zero => simp
      | succ j =>
        simp only [List.getElem?_cons_succ]
        exact ih j (by simpa using h)

lemma modifyLast_getElem?_last (f : ToolUse → ToolUse) (l : List ToolUse) (h : l ≠ []) :
    (modifyLast f l)[l.length - 1]? = (l[l.length - 1]?).map f := by
  induction l with
  | nil => exact absurd rfl h
  | cons t rest ih =>
    cases rest with
    | nil => rfl
    | cons u rest2 =>
      rw [modifyLast_cons_cons]
      have h2 : (t :: u :: rest2).length - 1 = ((u :: rest2).length - 1) + 1 := by
        simp
      rw [h2]
      simp only [List.getElem?_cons_succ]
      exact ih (by simp)

end ICChips

namespace ICChips

/-- Tool view of `handleEvent` for events that are neither tool starts,
input deltas, nor stops. -/
lemma handleEvent_other_teq (c : Core) (e : Json)
    (h1 : isToolStartEvt e = false) (h2 : isInputDeltaEvt e = false)
    (h3 : isStopEvt e = false) : TEq c (handleEvent c e) := by
  unfold handleEvent
  have hbs : ∀ x : Core, blockStartStep x e = x := fun x => blockStartStep_id x e h1
  have hbp : ∀ x : Core, blockStopStep x e = x := fun x => blockStopStep_id x e h3
  rw [hbs, hbp]
  exact teqTrans (sessionStep_teq c e) (teqTrans (messageStartStep_teq _ e)
    (teqTrans (deltaStep_teq _ e h2) (teqTrans (usageStep_teq _ e)
      (messageStopStep_teq _ e))))

/-- Tool view of `handleEvent` for a tool-start event. -/
lemma handleEvent_start_effect (c : Core) (e : Json) (h : isToolStartEvt e = true) :
    (∃ tid tname, (handleEvent c e).state.toolUses
        = c.state.toolUses ++ [⟨tid, tname, none⟩])
    ∧ (handleEvent c e).currentToolInput = []
    ∧ (handleEvent c e).isToolActive = true := by
  have htype : typeIs e (cs "content_block_start") = true := by
    unfold isToolStartEvt at h
    simp only [Bool.and_eq_true] at h
    exact h.1.1
  have h2 : isInputDeltaEvt e = false := by
    unfold isInputDeltaEvt
    rw [typeIs_unique (b := cs "content_block_delta") htype (by decide)]
    rfl
  have h3 : isStopEvt e = false := typeIs_unique (b := cs "content_block_stop") htype (by decide)
  unfold handleEvent
  have hbp : ∀ x : Core, blockStopStep x e = x := fun x => blockStopStep_id x e h3
  rw [hbp]
  have hd : TEq c (deltaStep (messageStartStep (sessionStep c e) e) e) :=
    teqTrans (sessionStep_teq c e) (teqTrans (messageStartStep_teq _ e)
      (deltaStep_teq _ e h2))
  have heff := blockStartStep_effect (deltaStep (messageStartStep (sessionStep c e) e) e) e h
  have hafter : TEq (blockStartStep (deltaStep (messageStartStep (sessionStep c e) e) e) e)
      (messageStopStep (usageStep (blockStartStep (deltaStep (messageStartStep (sessionStep c e) e) e) e) e) e) :=
    teqTrans (usageStep_teq _ e) (messageStopStep_teq _ e)
  obtain ⟨⟨tid, tname, hval⟩, hcti, hact⟩ := heff
  refine ⟨⟨tid, tname, ?_⟩, ?_, ?_⟩
  · rw [hafter.1, hval, hd.1]
  · rw [hafter.2.1, hcti]
  · rw [hafter.2.2, hact]

/-- Tool view of `handleEvent` for an `input_json_delta` event. -/
lemma handleEvent_delta_effect (c : Core) (e : Json) (h : isInputDeltaEvt e = true) :
    (handleEvent c e).state.toolUses = c.state.toolUses
    ∧ (handleEvent c e).currentToolInput = c.currentToolInput ++ evtFragment e
    ∧ (handleEvent c e).isToolActive = c.isToolActive := by
  have htype : typeIs e (cs "content_block_delta") = true := by
    unfold isInputDeltaEvt at h
    simp only [Bool.and_eq_true] at h
    exact h.1.1
  have h1 : isToolStartEvt e = false := by
    unfold isToolStartEvt
    rw [typeIs_unique (b := cs "content_block_start") htype (by decide)]
    rfl
  have h3 : isStopEvt e = false := typeIs_unique (b := cs "content_block_stop") htype (by decide)
  unfold handleEvent
  have hbs : ∀ x : Core, blockStartStep x e = x := fun x => blockStartStep_id x e h1
  have hbp : ∀ x : Core, blockStopStep x e = x := fun x => blockStopStep_id x e h3
  rw [hbs, hbp]
  have hpre : TEq c (messageStartStep (sessionStep c e) e) :=
    teqTrans (sessionStep_teq c e) (messageStartStep_teq _ e)
  have heff := deltaStep_input_effect (messageStartStep (sessionStep c e) e) e h
  have hafter : TEq (deltaStep (messageStartStep (sessionStep c e) e) e)
      (messageStopStep (usageStep (deltaStep (messageStartStep (sessionStep c e) e) e) e) e) :=
    teqTrans (usageStep_teq _ e) (messageStopStep_teq _ e)
  refine ⟨?_, ?_, ?_⟩
  · rw [hafter.1, heff.1, hpre.1]
  · rw [hafter.2.1, heff.2.1, hpre.2.1]
  · rw [hafter.2.2, heff.2.2, hpre.2.2]

/-- Tool view of `handleEvent` for a stop event with a nonempty
accumulated input and a nonempty `toolUses`. -/
lemma handleEvent_stop_effect (c : Core) (e : Json)
    (h1 : isToolStartEvt e = false) (h2 : isInputDeltaEvt e = false)
    (h3 : isStopEvt e = true)
    (hcti : c.currentToolInput ≠ []) (hlen : c.state.toolUses.length > 0) :
    (∃ inp, (handleEvent c e).state.toolUses
        = modifyLast (fun t => { t with input := some inp }) c.state.toolUses)
    ∧ (handleEvent c e).currentToolInput = []
    ∧ (handleEvent c e).isToolActive = false := by
  unfold handleEvent
  have hbs : ∀ x : Core, blockStartStep x e = x := fun x => blockStartStep_id x e h1
  rw [hbs]
  have hpre : TEq c (deltaStep (messageStartStep (sessionStep c e) e) e) :=
    teqTrans (sessionStep_teq c e) (teqTrans (messageStartStep_teq _ e)
      (deltaStep_teq _ e h2))
  have hstop : blockStopStep (deltaStep (messageStartStep (sessionStep c e) e) e) e
      = blockStopFinalize (deltaStep (messageStartStep (sessionStep c e) e) e) := by
    unfold blockStopStep isStopEvt at *
    rw [if_pos h3, if_pos]
    constructor
    · rw [hpre.2.1]; exact hcti
    · rw [hpre.1]; exact hlen
  rw [hstop]
  have heff := blockStopFinalize_effect (deltaStep (messageStartStep (sessionStep c e) e) e)
  have hafter : TEq (blockStopFinalize (deltaStep (messageStartStep (sessionStep c e) e) e))
      (messageStopStep (usageStep (blockStopFinalize (deltaStep (messageStartStep (sessionStep c e) e) e)) e) e) :=
    teqTrans (usageStep_teq _ e) (messageStopStep_teq _ e)
  obtain ⟨⟨inp, hval⟩, hcti2, hact⟩ := heff
  refine ⟨⟨inp, ?_⟩, ?_, ?_⟩
  · rw [hafter.1, hval, hpre.1]
  · rw [hafter.2.1, hcti2]
  · rw [hafter.2.2, hact]

/-- Tool view of `handleEvent` for a stop event with an empty
accumulated input: the guard fails and the stop is a no-op. -/
lemma handleEvent_stop_skip (c : Core) (e : Json)
    (h1 : isToolStartEvt e = false) (h2 : isInputDeltaEvt e = false)
    (hcti : c.currentToolInput = []) : TEq c (handleEvent c e) := by
  unfold handleEvent
  have hbs : ∀ x : Core, blockStartStep x e = x := fun x => blockStartStep_id x e h1
  rw [hbs]
  have hpre : TEq c (deltaStep (messageStartStep (sessionStep c e) e) e) :=
    teqTrans (sessionStep_teq c e) (teqTrans (messageStartStep_teq _ e)
      (deltaStep_teq _ e h2))
  have hstop : blockStopStep (deltaStep (messageStartStep (sessionStep c e) e) e) e
      = deltaStep (messageStartStep (sessionStep c e) e) e := by
    unfold blockStopStep
    split
    · rw [if_neg]
      intro hand
      exact hand.1 (by rw [hpre.2.1, hcti])
    · rfl
  rw [hstop]
  exact teqTrans hpre (teqTrans (usageStep_teq _ e) (messageStopStep_teq _ e))

end ICChips

namespace ICChips

/-- The induction invariant tying the scanner state to the parser: the
active flag mirrors the scanner, the accumulator is empty outside a
block and tracked by `accNE` inside one, the last entry of an open block
has null input, and null inputs occur **only** at the last entry of an
open block. -/
def ToolInv (st : ToolScan) (c : Core) : Prop :=
  c.isToolActive = st.openBlock
  ∧ (st.openBlock = false → c.currentToolInput = [])
  ∧ (st.openBlock = true → (st.accNE = true ↔ c.currentToolInput ≠ []))
  ∧ (st.openBlock = true →
      ∃ t, c.state.toolUses[c.state.toolUses.length - 1]? = some t ∧ t.input = none)
  ∧ (∀ (i : Nat) (t : ToolUse), c.state.toolUses[i]? = some t → t.input = none →
      st.openBlock = true ∧ i + 1 = c.state.toolUses.length)

lemma toolInv_teq {st : ToolScan} {c c' : Core} (ht : TEq c c') (h : ToolInv st c) :
    ToolInv st c' := by
  obtain ⟨h1, h2, h3, h4, h5⟩ := h
  refine ⟨?_, ?_, ?_, ?_, ?_⟩
  · rw [ht.2.2, h1]
  · intro ho; rw [ht.2.1]; exact h2 ho
  · intro ho; rw [ht.2.1]; exact h3 ho
  · intro ho; rw [ht.1]; exact h4 ho
  · intro i t hget hnone
    rw [ht.1] at hget
    rw [ht.1]
    exact h5 i t hget hnone

lemma toolInv_init : ToolInv ⟨false, false⟩ initCore := by
  refine ⟨rfl, fun _ => rfl, ?_, ?_, ?_⟩
  · intro h; cases h
  · intro h; cases h
  · intro i t hget _
    simp [initCore, initState] at hget

/-- One well-formed event preserves the invariant, and preserves every
entry whose input is already set. -/
lemma toolInv_step (st st' : ToolScan) (c : Core) (e : Json)
    (hinv : ToolInv st c) (hstep : wfStep st e = some st') :
    ToolInv st' (handleEvent c e)
    ∧ ∀ (i : Nat) (t : ToolUse) (v : ToolInput), c.state.toolUses[i]? = some t →
        t.input = some v → (handleEvent c e).state.toolUses[i]? = some t := by
  obtain ⟨hact, hempty, hacc, hlast, hnull⟩ := hinv
  by_cases hS : isToolStartEvt e = true
  · -- a tool block opens: the scanner required no block open
    rw [wfStep, if_pos hS] at hstep
    cases hob : st.openBlock with
    | true => rw [hob] at hstep; simp at hstep
    | false =>
      rw [hob] at hstep
      simp only [Bool.false_eq_true, if_false, Option.some.injEq] at hstep
      subst hstep
      obtain ⟨⟨tid, tname, hT⟩, hcti, hact'⟩ := handleEvent_start_effect c e hS
      refine ⟨⟨hact', ?_, ?_, ?_, ?_⟩, ?_⟩
      · intro h; cases h
      · intro _
        constructor
        · intro h; cases h
        · intro h; exact absurd hcti h
      · intro _
        refine ⟨⟨tid, tname, none⟩, ?_, rfl⟩
        rw [hT]
        have hl : (c.state.toolUses ++ [(⟨tid, tname, none⟩ : ToolUse)]).length - 1
            = c.state.toolUses.length := by simp
        rw [hl]
        exact List.getElem?_concat_length _ _
      · intro i t hget hnone
        rw [hT] at hget
        rcases Nat.lt_trichotomy i c.state.toolUses.length with hi | hi | hi
        · rw [List.getElem?_append_left hi] at hget
          have hcontra := hnull i t hget hnone
          rw [hob] at hcontra
          exact absurd hcontra.1 (by simp)
        · subst hi
          rw [List.getElem?_concat_length] at hget
          obtain rfl : (⟨tid, tname, none⟩ : ToolUse) = t := by simpa using hget
          refine ⟨rfl, ?_⟩
          rw [hT]
          simp
        · rw [List.getElem?_eq_none (by simpa using hi)] at hget
          cases hget
      · intro i t v hget _
        have hi : i < c.state.toolUses.length := (List.getElem?_eq_some.mp hget).1
        rw [hT, List.getElem?_append_left hi]
        exact hget
  · by_cases hD : isInputDeltaEvt e = true
    · -- an input fragment accumulates: the scanner required an open block
      rw [wfStep, if_neg (by simp [hS]), if_pos hD] at hstep
      cases hob : st.openBlock with
      | false => rw [hob] at hstep; simp at hstep
      | true =>
        rw [hob] at hstep
        simp only [if_true, Option.some.injEq] at hstep
        subst hstep
        obtain ⟨hT, hcti, hact'⟩ := handleEvent_delta_effect c e hD
        refine ⟨⟨?_, ?_, ?_, ?_, ?_⟩, ?_⟩
        · rw [hact', hact, hob]
        · intro h; cases h
        · intro _
          rw [hcti]
          constructor
          · intro h hnil
            rcases Bool.or_eq_true_iff.mp h with h' | h'
            · exact (hacc hob).mp h' (List.append_eq_nil.mp hnil).1
            · exact (of_decide_eq_true h') (List.append_eq_nil.mp hnil).2
          · intro hne
            by_cases hc : c.currentToolInput = []
            · rw [hc] at hne
              simp only [List.nil_append] at hne
              exact Bool.or_eq_true_iff.mpr (Or.inr (decide_eq_true hne))
            · exact Bool.or_eq_true_iff.mpr (Or.inl ((hacc hob).mpr hc))
        · intro _
          rw [hT]
          exact hlast hob
        · intro i t hget hnone
          rw [hT] at hget
          have hh := hnull i t hget hnone
          refine ⟨rfl, ?_⟩
          rw [hT]
          exact hh.2
        · intro i t v hget _
          rw [hT]
          exact hget
    · by_cases hP : isStopEvt e = true
      · rw [wfStep, if_neg (by simp [hS]), if_neg (by simp [hD]), if_pos hP] at hstep
        cases hob : st.openBlock with
        | true =>
          -- a tool block closes: the scanner required nonempty input
          rw [hob] at hstep
          cases hne : st.accNE with
          | false => rw [hne] at hstep; simp at hstep
          | true =>
            rw [hne] at hstep
            simp only [if_true, Option.some.injEq] at hstep
            subst hstep
            have hcti : c.currentToolInput ≠ [] := (hacc hob).mp hne
            obtain ⟨tl, htl, htlnone⟩ := hlast hob
            have hlen : c.state.toolUses.length > 0 := by
              rcases Nat.eq_zero_or_pos c.state.toolUses.length with h0 | h0
              · rw [List.getElem?_eq_none (by omega)] at htl
                cases htl
              · exact h0
            obtain ⟨⟨inp, hT⟩, hcti', hact'⟩ :=
              handleEvent_stop_effect c e (by simpa using hS) (by simpa using hD) hP hcti hlen
            have hTnil : c.state.toolUses ≠ [] := by
              intro h0
              rw [h0] at hlen
              simp at hlen
            refine ⟨⟨hact', fun _ => hcti', ?_, ?_, ?_⟩, ?_⟩
            · intro h; cases h
            · intro h; cases h
            · intro i t hget hnone
              rw [hT] at hget
              rcases Nat.lt_trichotomy (i + 1) c.state.toolUses.length with hi | hi | hi
              · rw [modifyLast_getElem?_lt _ _ _ hi] at hget
                have := hnull i t hget hnone
                omega
              · have hieq : i = c.state.toolUses.length - 1 := by omega
                subst hieq
                rw [modifyLast_getElem?_last _ _ hTnil, htl] at hget
                obtain rfl : ({ tl with input := some inp } : ToolUse) = t := by
                  simpa using hget
                cases hnone
              · rw [List.getElem?_eq_none (le_of_not_lt (by
                    rw [modifyLast_length] at *
                    omega))] at hget
                cases hget
            · intro i t v hget hval
              have hi : i < c.state.toolUses.length := (List.getElem?_eq_some.mp hget).1
              have hine : i ≠ c.state.toolUses.length - 1 := by
                intro hieq
                subst hieq
                rw [htl] at hget
                obtain rfl : tl = t := by simpa using hget
                rw [htlnone] at hval
                cases hval
              rw [hT, modifyLast_getElem?_lt _ _ _ (by omega)]
              exact hget
        | false =>
          -- a stop outside any tool block: the guard fails, no-op
          rw [hob] at hstep
          simp only [Bool.false_eq_true, if_false, Option.some.injEq] at hstep
          subst hstep
          have hteq := handleEvent_stop_skip c e (by simpa using hS) (by simpa using hD)
            (hempty hob)
          refine ⟨toolInv_teq hteq ⟨hact, hempty, hacc, hlast, hnull⟩, ?_⟩
          intro i t v hget _
          rw [hteq.1]
          exact hget
      · -- any other event leaves the tool view untouched
        rw [wfStep, if_neg (by simp [hS]), if_neg (by simp [hD]),
            if_neg (by simp [hP]), Option.some.injEq] at hstep
        subst hstep
        have hteq := handleEvent_other_teq c e (by simpa using hS) (by simpa using hD)
          (by simpa using hP)
        refine ⟨toolInv_teq hteq ⟨hact, hempty, hacc, hlast, hnull⟩, ?_⟩
        intro i t v hget _
        rw [hteq.1]
        exact hget

end ICChips

namespace ICChips

/-- Scanning distributes over append. -/
lemma wfScan_append (st : ToolScan) (xs ys : List Json) :
    wfScan st (xs ++ ys) = (wfScan st xs).bind (fun st1 => wfScan st1 ys) := by
  induction xs generalizing st with
  | nil => rfl
  | cons e rest ih =>
    simp only [List.cons_append, wfScan]
    cases wfStep st e with
    | none => rfl
    | some st2 => exact ih st2

/-- Folding a well-formed event list preserves the invariant and every
already-finalized entry. -/
lemma toolInv_run (es : List Json) (st st' : ToolScan) (c : Core)
    (hinv : ToolInv st c) (hscan : wfScan st es = some st') :
    ToolInv st' (es.foldl handleEvent c)
    ∧ ∀ (i : Nat) (t : ToolUse) (v : ToolInput), c.state.toolUses[i]? = some t →
        t.input = some v → (es.foldl handleEvent c).state.toolUses[i]? = some t := by
  induction es generalizing st c with
  | nil =>
    simp only [wfScan, Option.some.injEq] at hscan
    subst hscan
    exact ⟨hinv, fun _ _ _ hget _ => hget⟩
  | cons e rest ih =>
    simp only [wfScan] at hscan
    cases hw : wfStep st e with
    | none => rw [hw] at hscan; cases hscan
    | some st2 =>
      rw [hw] at hscan
      have hstep := toolInv_step st st2 c e hinv hw
      have hrest := ih st2 (handleEvent c e) hstep.1 hscan
      simp only [List.foldl_cons]
      refine ⟨hrest.1, ?_⟩
      intro i t v hget hval
      exact hrest.2 i t v (hstep.2 i t v hget hval) hval

end ICChips

namespace ICChips

/-- C2 (amended): over any **well-formed** event sequence — every
`input_json_delta` and every block-closing `content_block_stop` lies
inside a tool block, each block accumulates a nonempty input before its
stop, and blocks do not nest (`toolWF`) — each `toolUses` entry's input
is write-once: an entry whose `input` is non-null after any prefix is
bit-for-bit unchanged by all later events, and an entry with null input
can only be the last entry of the still-open block (so the input is set
exactly once, at the block's closing stop).  The counterexample shows
why the well-formedness hypothesis is necessary: the code lets a stray
`input_json_delta` outside any block re-finalize a completed entry. -/
theorem c2_tool_input_write_once (es₁ es₂ : List Json)
    (h : toolWF (es₁ ++ es₂) = true) :
    (∀ (i : Nat) (t : ToolUse) (v : ToolInput),
        (runEvents es₁).state.toolUses[i]? = some t → t.input = some v →
        (runEvents (es₁ ++ es₂)).state.toolUses[i]? = some t)
    ∧ (∀ (i : Nat) (t : ToolUse),
        (runEvents (es₁ ++ es₂)).state.toolUses[i]? = some t → t.input = none →
        (runEvents (es₁ ++ es₂)).isToolActive = true
        ∧ i + 1 = (runEvents (es₁ ++ es₂)).state.toolUses.length) := by
  unfold toolWF at h
  obtain ⟨stF, hscanF⟩ := Option.isSome_iff_exists.mp h
  rw [wfScan_append] at hscanF
  cases h1 : wfScan ⟨false, false⟩ es₁ with
  | none => rw [h1] at hscanF; cases hscanF
  | some st1 =>
    rw [h1] at hscanF
    simp only [Option.some_bind] at hscanF
    have hrun1 := toolInv_run es₁ ⟨false, false⟩ st1 initCore toolInv_init h1
    have hrun2 := toolInv_run es₂ st1 stF (es₁.foldl handleEvent initCore) hrun1.1 hscanF
    unfold runEvents
    rw [List.foldl_append]
    constructor
    · intro i t v hget hval
      exact hrun2.2 i t v hget hval
    · intro i t hget hnone
      have h5 := hrun2.1.2.2.2.2 i t hget hnone
      refine ⟨?_, h5.2⟩
      rw [hrun2.1.1, h5.1]

set_option maxRecDepth 80000 in
/-- Witness for C2 (amended): a completed tool block followed by a new
tool start; the first entry keeps its raw input `"x"`. -/
theorem c2_tool_input_write_once_witness :
    toolWF ([evToolStart, evInputDelta (cs "x"), evBlockStop] ++ [evToolStart]) = true
    ∧ (runEvents ([evToolStart, evInputDelta (cs "x"), evBlockStop] ++ [evToolStart])).state.toolUses[0]?
        = some ⟨cs "t1", cs "B", some (.raw (cs "x"))⟩ :=
  ⟨rfl, (c2_tool_input_write_once [evToolStart, evInputDelta (cs "x"), evBlockStop]
    [evToolStart] rfl).1 0 ⟨cs "t1", cs "B", some (.raw (cs "x"))⟩ (.raw (cs "x")) rfl rfl⟩

end ICChips

namespace ICChips

/-! ### Incremental/batch equivalence (claim C1) -/

/-- Split into (complete lines, trailing partial line): the pair
`((splitOnChar sep s).dropLast, (splitOnChar sep s).getLast)`. -/
def splitCL (sep : Char) : List Char → List (List Char) × List Char
  | [] => ([], [])
  | c :: rest =>
    let p := splitCL sep rest
    if c = sep then ([] :: p.1, p.2)
    else
      match p.1 with
      | l :: ls => ((c :: l) :: ls, p.2)
      | [] => ([], c :: p.2)

lemma splitCL_cons_sep (sep : Char) (rest : List Char) :
    splitCL sep (sep :: rest) = ([] :: (splitCL sep rest).1, (splitCL sep rest).2) := by
  conv_lhs => unfold splitCL
  dsimp only
  rw [if_pos rfl]

lemma splitCL_cons_ne_nil (sep c : Char) (rest : List Char) (hc : c ≠ sep)
    (hp : (splitCL sep rest).1 = []) :
    splitCL sep (c :: rest) = ([], c :: (splitCL sep rest).2) := by
  conv_lhs => unfold splitCL
  dsimp only
  rw [if_neg hc, hp]

lemma splitCL_cons_ne_cons (sep c : Char) (rest : List Char) (hc : c ≠ sep)
    (l : List Char) (ls : List (List Char)) (hp : (splitCL sep rest).1 = l :: ls) :
    splitCL sep (c :: rest) = ((c :: l) :: ls, (splitCL sep rest).2) := by
  conv_lhs => unfold splitCL
  dsimp only
  rw [if_neg hc, hp]

lemma splitOnChar_ne_nil (sep : Char) (s : List Char) : splitOnChar sep s ≠ [] := by
  cases s with
  | nil => simp [splitOnChar]
  | cons c rest =>
    unfold splitOnChar
    split
    · simp
    · split <;> simp

lemma splitOnChar_eq_splitCL (sep : Char) (s : List Char) :
    splitOnChar sep s = (splitCL sep s).1 ++ [(splitCL sep s).2] := by
  induction s with
  | nil => rfl
  | cons c rest ih =>
    by_cases hc : c = sep
    · subst hc
      rw [splitCL_cons_sep]
      unfold splitOnChar
      rw [if_pos rfl, ih]
      rfl
    · cases hp : (splitCL sep rest).1 with
      | nil =>
        rw [splitCL_cons_ne_nil sep c rest hc hp]
        unfold splitOnChar
        rw [if_neg hc]
        rw [hp] at ih
        simp only [List.nil_append] at ih
        rw [ih]
        rfl
      | cons l ls =>
        rw [splitCL_cons_ne_cons sep c rest hc l ls hp]
        unfold splitOnChar
        rw [if_neg hc]
        rw [hp] at ih
        rw [ih]
        simp

lemma splitCL_append (sep : Char) (a b : List Char) :
    splitCL sep (a ++ b)
      = ((splitCL sep a).1 ++ (splitCL sep ((splitCL sep a).2 ++ b)).1,
         (splitCL sep ((splitCL sep a).2 ++ b)).2) := by
  induction a with
  | nil => simp [splitCL]
  | cons c rest ih =>
    by_cases hc : c = sep
    · subst hc
      simp only [List.cons_append]
      rw [splitCL_cons_sep, splitCL_cons_sep, ih]
      simp
    · cases hp : (splitCL sep rest).1 with
      | cons l ls =>
        simp only [List.cons_append]
        rw [splitCL_cons_ne_cons sep c rest hc l ls hp]
        have hq : (splitCL sep (rest ++ b)).1
            = l :: (ls ++ (splitCL sep ((splitCL sep rest).2 ++ b)).1) := by
          rw [ih, hp]
          rfl
        rw [splitCL_cons_ne_cons sep c (rest ++ b) hc _ _ hq]
        rw [ih]
        simp
      | nil =>
        simp only [List.cons_append]
        rw [splitCL_cons_ne_nil sep c rest hc hp]
        simp only [List.cons_append]
        have hq : splitCL sep (rest ++ b) = splitCL sep ((splitCL sep rest).2 ++ b) := by
          rw [ih, hp]
          simp
        cases hq2 : (splitCL sep ((splitCL sep rest).2 ++ b)).1 with
        | nil =>
          rw [splitCL_cons_ne_nil sep c (rest ++ b) hc (by rw [hq, hq2]),
              splitCL_cons_ne_nil sep c ((splitCL sep rest).2 ++ b) hc hq2]
          rw [hq]
          simp
        | cons m ms =>
          rw [splitCL_cons_ne_cons sep c (rest ++ b) hc m ms (by rw [hq, hq2]),
              splitCL_cons_ne_cons sep c ((splitCL sep rest).2 ++ b) hc m ms hq2]
          rw [hq]
          simp

end ICChips

namespace ICChips

lemma processChunkNT_eq (p : StreamParserInst) (chunk : List Char) :
    processChunkNT p chunk
      = ⟨(splitCL '\n' (p.buffer ++ chunk)).1.foldl stepLine p.core,
         (splitCL '\n' (p.buffer ++ chunk)).2⟩ := by
  unfold processChunkNT
  rw [splitOnChar_eq_splitCL]
  dsimp only
  rw [List.dropLast_concat, List.getLast?_concat]
  rfl

lemma processChunkNT_append (p : StreamParserInst) (a b : List Char) :
    processChunkNT (processChunkNT p a) b = processChunkNT p (a ++ b) := by
  rw [processChunkNT_eq p a, processChunkNT_eq, processChunkNT_eq p (a ++ b)]
  dsimp only
  rw [← List.append_assoc, splitCL_append '\n' (p.buffer ++ a) b]
  dsimp only
  rw [List.foldl_append]

lemma foldl_processChunkNT (rest : List (List Char)) :
    ∀ (p : StreamParserInst) (c : List Char),
    rest.foldl processChunkNT (processChunkNT p c) = processChunkNT p (c ++ rest.flatten) := by
  induction rest with
  | nil => intro p c; simp
  | cons d ds ih =>
    intro p c
    rw [List.foldl_cons, processChunkNT_append, ih, List.flatten_cons, ← List.append_assoc]

lemma stepLine_nil (c : Core) : stepLine c [] = c := rfl

end ICChips

namespace ICChips

/-! ### Table re-scanning is duplicate-free (claim C5) -/

/-- The number of nonblank lines of a text, in the sense of the filter
inside `parseMarkdownTable`. -/
def nlCount (s : List Char) : Nat :=
  ((splitOnChar '\n' s).filter (fun l => jsTrim l ≠ [])).length

lemma jsTrim_eq_nil_iff (s : List Char) :
    jsTrim s = [] ↔ ∀ c ∈ s, isJsWs c = true := by
  unfold jsTrim
  rw [List.reverse_eq_nil_iff, List.dropWhile_eq_nil_iff]
  constructor
  · intro h c hc
    rw [← List.takeWhile_append_dropWhile isJsWs s] at hc
    rcases List.mem_append.mp hc with h1 | h2
    · exact List.mem_takeWhile_imp h1
    · exact h c (List.mem_reverse.mpr h2)
  · intro h c hc
    exact h c ((List.dropWhile_sublist ..).mem (List.mem_reverse.mp hc))

lemma jsTrim_ne_nil (s : List Char) (c : Char) (hc : c ∈ s) (hw : isJsWs c = false) :
    jsTrim s ≠ [] :=
  fun h => absurd ((jsTrim_eq_nil_iff s).mp h c hc) (by simp [hw])

lemma jsTrim_cons_ne_nil (c : Char) (l : List Char) (h : jsTrim l ≠ []) :
    jsTrim (c :: l) ≠ [] := by
  rw [Ne, jsTrim_eq_nil_iff] at h ⊢
  intro hall
  exact h (fun x hx => hall x (List.mem_cons_of_mem c hx))

lemma splitOnChar_cons_self (sep : Char) (b : List Char) :
    splitOnChar sep (sep :: b) = [] :: splitOnChar sep b := by
  conv_lhs => unfold splitOnChar
  rw [if_pos rfl]

lemma splitOnChar_append_left (sep : Char) (r l : List Char) (ls : List (List Char))
    (hr : splitOnChar sep r = l :: ls) :
    ∀ d : List Char, sep ∉ d → splitOnChar sep (d ++ r) = (d ++ l) :: ls := by
  intro d
  induction d with
  | nil => intro h; simpa using hr
  | cons c rest ih =>
    intro h
    simp only [List.mem_cons, not_or] at h
    rw [List.cons_append]
    unfold splitOnChar
    rw [if_neg (fun hc => h.1 hc.symm), ih h.2]
    simp

lemma splitOnChar_sepfree_append (sep : Char) (a b : List Char) (h : sep ∉ a) :
    splitOnChar sep (a ++ sep :: b) = a :: splitOnChar sep b := by
  rw [splitOnChar_append_left sep (sep :: b) [] (splitOnChar sep b)
      (splitOnChar_cons_self sep b) a h, List.append_nil]

lemma nlCount_nl_cons (w : List Char) : nlCount ('\n' :: w) = nlCount w := by
  unfold nlCount
  rw [splitOnChar_cons_self, List.filter_cons]
  have h0 : jsTrim ([] : List Char) = [] := rfl
  simp [h0]

lemma nlCount_cons_ge (c : Char) (w : List Char) : nlCount w ≤ nlCount (c :: w) := by
  by_cases hc : c = '\n'
  · subst hc
    rw [nlCount_nl_cons]
  · unfold nlCount
    conv_rhs => unfold splitOnChar
    rw [if_neg hc]
    cases hq : splitOnChar '\n' w with
    | nil => exact absurd hq (splitOnChar_ne_nil '\n' w)
    | cons l ls =>
      dsimp only
      rw [List.filter_cons, List.filter_cons]
      by_cases hl : jsTrim l = []
      · rw [if_neg (by simp [hl])]
        split
        · simp only [List.length_cons]
          omega
        · exact Nat.le_refl _
      · rw [if_pos (by simpa using hl), if_pos (by simpa using jsTrim_cons_ne_nil c l hl)]
        simp

lemma nlCount_prepend (x : List Char) : ∀ w, nlCount w ≤ nlCount (x ++ w) := by
  induction x with
  | nil => intro w; simp
  | cons c rest ih =>
    intro w
    rw [List.cons_append]
    exact le_trans (ih w) (nlCount_cons_ge c (rest ++ w))

lemma nlCount_line_cons (a b : List Char) (h : '\n' ∉ a) (ht : jsTrim a ≠ []) :
    nlCount (a ++ '\n' :: b) = 1 + nlCount b := by
  unfold nlCount
  rw [splitOnChar_sepfree_append '\n' a b h, List.filter_cons, if_pos (by simpa using ht)]
  simp [Nat.add_comm]

lemma dropWhile_first_not (p : Char → Bool) (l : List Char) :
    ∀ (c : Char) (r : List Char), l.dropWhile p = c :: r → p c = false := by
  induction l with
  | nil => intro c r h; simp at h
  | cons a t ih =>
    intro c r h
    rw [List.dropWhile_cons] at h
    split at h
    · exact ih c r h
    · rename_i hpa
      injection h with h1 h2
      subst h1
      simpa using hpa

lemma nlCount_head_pos (d r : List Char) (hd : '\n' ∉ d) (ht : jsTrim d ≠ []) :
    1 ≤ nlCount (d ++ r) := by
  cases hq : splitOnChar '\n' r with
  | nil => exact absurd hq (splitOnChar_ne_nil '\n' r)
  | cons l ls =>
    unfold nlCount
    rw [splitOnChar_append_left '\n' r l ls hq d hd, List.filter_cons, if_pos ?hp]
    case hp =>
      obtain ⟨c, hc, hw⟩ : ∃ c ∈ d, isJsWs c = false := by
        by_contra hno
        push_neg at hno
        exact ht ((jsTrim_eq_nil_iff d).mpr
          (fun c hc => by
            have := hno c hc
            cases hwc : isJsWs c with
            | false => exact absurd hwc this
            | true => rfl))
      simpa using jsTrim_ne_nil (d ++ l) c (List.mem_append_left l hc) hw
    simp

lemma nlCount_pipe_line (x b : List Char) (hx : x.head? = some '|') :
    1 + nlCount b ≤ nlCount (x ++ '\n' :: b) := by
  obtain ⟨u, hu⟩ : ∃ u, x = '|' :: u := by
    cases x with
    | nil => simp at hx
    | cons c u => simp at hx; exact ⟨u, by rw [hx]⟩
  have hpw : isJsWs '|' = false := rfl
  by_cases hnl : '\n' ∈ x
  · obtain ⟨Q, hQ⟩ : ∃ Q, x.dropWhile (fun c => c ≠ '\n') = '\n' :: Q := by
      cases hdw : x.dropWhile (fun c => c ≠ '\n') with
      | nil =>
        rw [List.dropWhile_eq_nil_iff] at hdw
        have := hdw '\n' hnl
        simp at this
      | cons e Q =>
        have he := dropWhile_first_not (fun c => c ≠ '\n') x e Q hdw
        simp at he
        exact ⟨Q, by rw [he]⟩
    have hsplit : x.takeWhile (fun c => c ≠ '\n') ++ '\n' :: Q = x := by
      rw [← hQ]
      exact List.takeWhile_append_dropWhile ..
    have hPn : '\n' ∉ x.takeWhile (fun c => c ≠ '\n') := by
      intro hmem
      have := List.mem_takeWhile_imp hmem
      simp at this
    have hPh : '|' ∈ x.takeWhile (fun c => c ≠ '\n') := by
      rw [hu, List.takeWhile_cons]
      simp
    have heq : x ++ '\n' :: b
        = x.takeWhile (fun c => c ≠ '\n') ++ '\n' :: (Q ++ '\n' :: b) := by
      conv_lhs => rw [← hsplit]
      simp
    rw [heq, nlCount_line_cons _ _ hPn (jsTrim_ne_nil _ '|' hPh hpw)]
    have h1 := nlCount_prepend Q ('\n' :: b)
    rw [nlCount_nl_cons] at h1
    omega
  · rw [nlCount_line_cons x b hnl (jsTrim_ne_nil x '|' (by rw [hu]; simp) hpw)]

lemma getLast?_append_right (l1 l2 : List Char) (a : Char) (h : l2.getLast? = some a) :
    (l1 ++ l2).getLast? = some a := by
  rw [List.getLast?_append, h]
  rfl

end ICChips

namespace ICChips

lemma jsTrim_append_pipe (a z : List Char) (h1 : a.head? = some '|')
    (h2 : a.getLast? = some '|') :
    ∃ z', jsTrim (a ++ z) = a ++ z' := by
  obtain ⟨t, ht⟩ : ∃ t, a = '|' :: t := by
    cases a with
    | nil => simp at h1
    | cons c t => simp at h1; exact ⟨t, by rw [h1]⟩
  obtain ⟨u, hu⟩ : ∃ u, a.reverse = '|' :: u := by
    rw [← List.head?_reverse] at h2
    cases hr : a.reverse with
    | nil => rw [hr] at h2; simp at h2
    | cons d u => rw [hr] at h2; simp at h2; exact ⟨u, by rw [h2]⟩
  have hpw : isJsWs '|' = false := rfl
  unfold jsTrim
  have hdw : (a ++ z).dropWhile isJsWs = a ++ z := by
    rw [ht, List.cons_append, List.dropWhile_cons, hpw]
    simp
  rw [hdw, List.reverse_append, List.dropWhile_append]
  by_cases hz : (z.reverse.dropWhile isJsWs).isEmpty
  · rw [if_pos hz, hu, List.dropWhile_cons, hpw]
    simp only [Bool.false_eq_true, if_false]
    exact ⟨[], by rw [← hu, List.reverse_reverse, List.append_nil]⟩
  · rw [if_neg hz]
    exact ⟨(z.reverse.dropWhile isJsWs).reverse,
      by rw [List.reverse_append, List.reverse_reverse]⟩

lemma matchHeader_shape (s line1 r1 : List Char)
    (h : matchHeader s = some (line1, r1)) :
    line1.head? = some '|' ∧ '\n' ∉ line1 ∧ jsTrim line1 ≠ [] := by
  unfold matchHeader at h
  split at h
  · rename_i t
    dsimp only at h
    split at h
    · rename_i r hr
      split at h
      · rename_i hcond
        injection h with h1
        injection h1 with hl hr1
        subst hl
        refine ⟨rfl, ?_, ?_⟩
        · intro hmem
          rcases List.mem_cons.mp hmem with h' | h'
          · exact absurd h'.symm (by decide)
          · have := List.mem_takeWhile_imp h'
            simp at this
        · exact jsTrim_ne_nil _ '|' (by simp) rfl
      · exact absurd h (by simp)
    · exact absurd h (by simp)
  · exact absurd h (by simp)

lemma matchRow_shape (s consumed r : List Char)
    (h : matchRow s = some (consumed, r)) :
    ∃ d z, consumed = d ++ z ∧ d.head? = some '|' ∧ '\n' ∉ d
      ∧ d.getLast? = some '|' := by
  unfold matchRow at h
  split at h
  · rename_i t
    dsimp only at h
    split at h
    · rename_i preRev hpre
      split at h
      · exact absurd h (by simp)
      · rename_i hne
        have hnotnl : '\n' ∉ ('|' :: (preRev.reverse ++ ['|']) : List Char) := by
          intro hmem
          rcases List.mem_cons.mp hmem with h' | h'
          · exact absurd h'.symm (by decide)
          · rcases List.mem_append.mp h' with h'' | h''
            · have hm1 : '\n' ∈ preRev := List.mem_reverse.mp h''
              have hm2 : '\n' ∈ ('|' :: preRev : List Char) := List.mem_cons_of_mem _ hm1
              rw [← hpre] at hm2
              have hm3 : '\n' ∈ (t.takeWhile (· ≠ '\n')).reverse :=
                (List.dropWhile_sublist ..).mem hm2
              have := List.mem_takeWhile_imp (List.mem_reverse.mp hm3)
              simp at this
            · simp at h''
        have hlast : ('|' :: (preRev.reverse ++ ['|']) : List Char).getLast? = some '|' := by
          show (('|' :: preRev.reverse) ++ ['|'] : List Char).getLast? = some '|'
          exact List.getLast?_concat ..
        split at h
        · rename_i r2 hafter
          injection h with h1
          injection h1 with hc hr2
          exact ⟨'|' :: (preRev.reverse ++ ['|']), ['\n'], hc.symm, rfl, hnotnl, hlast⟩
        · injection h with h1
          injection h1 with hc hr2
          exact ⟨'|' :: (preRev.reverse ++ ['|']), [], by rw [← hc, List.append_nil], rfl,
            hnotnl, hlast⟩
    · exact absurd h (by simp)
  · exact absurd h (by simp)

lemma matchRows_shape (s rows r : List Char) (h : matchRows s = some (rows, r)) :
    ∃ d z, rows = d ++ z ∧ d.head? = some '|' ∧ '\n' ∉ d ∧ d.getLast? = some '|' := by
  unfold matchRows at h
  split at h
  · rename_i consumed rest hrow
    dsimp only at h
    injection h with h1
    injection h1 with hrows hr
    obtain ⟨d, z, hc, hh, hn, hl⟩ := matchRow_shape s consumed rest hrow
    exact ⟨d, z ++ (matchRowsAux rest.length rest).1,
      by rw [← hrows, hc, List.append_assoc], hh, hn, hl⟩
  · exact absurd h (by simp)

lemma matchSepRowsAux_shape (t : List Char) :
    ∀ (i : Nat) (out rest : List Char), matchSepRowsAux t i = some (out, rest) →
    ∃ (j : Nat) (rows after r2 : List Char),
      out = '|' :: (t.take (j + 1) ++ '|' :: '\n' :: rows)
      ∧ matchRows after = some (rows, r2) := by
  intro i
  induction i with
  | zero => intro out rest h; exact absurd h (by simp [matchSepRowsAux])
  | succ i ih =>
    intro out rest h
    unfold matchSepRowsAux at h
    split at h
    · rename_i after heq
      split at h
      · rename_i rows r2 hrows
        injection h with h1
        injection h1 with ho hr
        exact ⟨i, rows, after, r2, ho.symm, hrows⟩
      · exact ih out rest h
    · exact ih out rest h

lemma matchSepRows_shape (s out rest : List Char)
    (h : matchSepRows s = some (out, rest)) :
    ∃ mid2 rows : List Char, out = ('|' :: mid2) ++ '\n' :: rows
      ∧ ∃ after r2, matchRows after = some (rows, r2) := by
  unfold matchSepRows at h
  split at h
  · rename_i t
    dsimp only at h
    obtain ⟨j, rows, after, r2, hout, hrows⟩ := matchSepRowsAux_shape t _ out rest h
    exact ⟨t.take (j + 1) ++ ['|'], rows, by rw [hout]; simp, after, r2, hrows⟩
  · exact absurd h (by simp)

end ICChips
namespace ICChips

lemma matchTableAt_parses (s m r : List Char) (h : matchTableAt s = some (m, r)) :
    ∃ t, parseMarkdownTable m = some t := by
  unfold matchTableAt at h
  split at h
  · rename_i line1 r1 hheader
    split at h
    · rename_i sepRows rest hsep
      injection h with h1
      injection h1 with hm hr
      obtain ⟨hh1, hn1, ht1⟩ := matchHeader_shape s line1 r1 hheader
      obtain ⟨mid2, rows, hout, after, r2, hrows⟩ := matchSepRows_shape r1 sepRows rest hsep
      obtain ⟨d, z, hrz, hdh, hdn, hdl⟩ := matchRows_shape after rows r2 hrows
      obtain ⟨l1t, hl1t⟩ : ∃ u, line1 = '|' :: u := by
        cases line1 with
        | nil => simp at hh1
        | cons c u => simp at hh1; exact ⟨u, by rw [hh1]⟩
      have hm2 : m = (line1 ++ '\n' :: (('|' :: mid2) ++ '\n' :: d)) ++ z := by
        rw [← hm, hout, hrz]
        simp
      have hahead : (line1 ++ '\n' :: (('|' :: mid2) ++ '\n' :: d)).head? = some '|' := by
        rw [hl1t]
        rfl
      have halast : (line1 ++ '\n' :: (('|' :: mid2) ++ '\n' :: d)).getLast? = some '|' := by
        rw [show line1 ++ '\n' :: (('|' :: mid2) ++ '\n' :: d)
            = (line1 ++ '\n' :: ('|' :: mid2) ++ ['\n']) ++ d by simp]
        exact getLast?_append_right _ d '|' hdl
      obtain ⟨z', hz'⟩ := jsTrim_append_pipe _ z hahead halast
      rw [← hm2] at hz'
      have hcount : 3 ≤ nlCount (jsTrim m) := by
        rw [hz', show (line1 ++ '\n' :: (('|' :: mid2) ++ '\n' :: d)) ++ z'
            = line1 ++ '\n' :: (('|' :: mid2) ++ '\n' :: (d ++ z')) by simp]
        rw [nlCount_line_cons line1 _ hn1 ht1]
        have h2 : 1 + nlCount (d ++ z')
            ≤ nlCount (('|' :: mid2) ++ '\n' :: (d ++ z')) :=
          nlCount_pipe_line ('|' :: mid2) (d ++ z') rfl
        have hdmem : '|' ∈ d := by
          cases d with
          | nil => simp at hdh
          | cons c dt => simp at hdh; rw [hdh]; simp
        have h3 : 1 ≤ nlCount (d ++ z') :=
          nlCount_head_pos d z' hdn (jsTrim_ne_nil d '|' hdmem rfl)
        omega
      have hn3 : ¬ ((splitOnChar '\n' (jsTrim m)).filter (fun l => jsTrim l ≠ [])).length < 3 := by
        unfold nlCount at hcount
        omega
      unfold parseMarkdownTable
      dsimp only
      rw [if_neg hn3]
      exact ⟨_, rfl⟩
    · exact absurd h (by simp)
  · exact absurd h (by simp)

end ICChips

namespace ICChips

lemma mem_tableMatchesAux (fuel : Nat) :
    ∀ (s m : List Char), m ∈ tableMatchesAux fuel s →
    ∃ s' r, matchTableAt s' = some (m, r) := by
  induction fuel with
  | zero => intro s m h; simp [tableMatchesAux] at h
  | succ fuel ih =>
    intro s m h
    unfold tableMatchesAux at h
    cases s with
    | nil => simp at h
    | cons c rest =>
      dsimp only at h
      cases hmt : matchTableAt (c :: rest) with
      | none =>
        rw [hmt] at h
        exact ih rest m h
      | some p =>
        rw [hmt] at h
        rcases List.mem_cons.mp h with h' | h'
        · exact ⟨c :: rest, p.2, by rw [hmt, h']⟩
        · exact ih p.2 m h'

lemma tableMatches_parse (s m : List Char) (h : m ∈ tableMatches s) :
    ∃ t, parseMarkdownTable m = some t := by
  obtain ⟨s', r, hmt⟩ := mem_tableMatchesAux s.length s m h
  exact matchTableAt_parses s' m r hmt

lemma foldl_detectPush_spec (ms : List (List Char)) :
    ∀ c : Core,
    (ms.foldl detectPush c).state.tables
        = c.state.tables ++ ms.filterMap parseMarkdownTable
      ∧ (ms.foldl detectPush c).state.assistantText = c.state.assistantText := by
  induction ms with
  | nil => intro c; simp
  | cons m rest ih =>
    intro c
    rw [List.foldl_cons, List.filterMap_cons]
    cases hp : parseMarkdownTable m with
    | none =>
      have hid : detectPush c m = c := by
        unfold detectPush
        rw [hp]
      rw [hid]
      exact ih c
    | some t =>
      have hpush : detectPush c m
          = { c with
              state := { c.state with
                tables := c.state.tables ++ [t],
                chronologicalEvents :=
                  c.state.chronologicalEvents ++ [ChronoEvent.table t] },
              emitted := c.emitted ++ [Emit.tableDetected t (c.state.tables ++ [t])] } := by
        unfold detectPush
        rw [hp]
      rw [hpush]
      obtain ⟨h1, h2⟩ := ih _
      constructor
      · rw [h1]
        simp
      · rw [h2]

lemma filterMap_parse_length (ms : List (List Char))
    (h : ∀ m ∈ ms, ∃ t, parseMarkdownTable m = some t) :
    (ms.filterMap parseMarkdownTable).length = ms.length := by
  induction ms with
  | nil => rfl
  | cons m rest ih =>
    rw [List.filterMap_cons]
    obtain ⟨t, ht⟩ := h m (by simp)
    rw [ht]
    simp only [List.length_cons]
    rw [ih (fun x hx => h x (by simp [hx]))]

lemma detectAndParseTables_spec (c : Core) :
    (detectAndParseTables c).state.tables
      = c.state.tables
        ++ ((tableMatches c.state.assistantText).drop c.state.tables.length).filterMap
            parseMarkdownTable
    ∧ (detectAndParseTables c).state.assistantText = c.state.assistantText := by
  unfold detectAndParseTables
  dsimp only
  split
  · exact ⟨(foldl_detectPush_spec _ c).1, (foldl_detectPush_spec _ c).2⟩
  · rename_i hle
    have hdrop : (tableMatches c.state.assistantText).drop c.state.tables.length = [] := by
      rw [List.drop_eq_nil_iff]
      omega
    rw [hdrop]
    simp

/-- C5: one table-detection pass appends exactly the parses of the regex
matches at index ≥ `tables.length`, leaving the already-captured prefix
of `tables` untouched, and a second pass over the same accumulated text
is the identity, so re-scanning never duplicates a captured table. -/
theorem c5_table_rescan_no_duplicates (c : Core) :
    (detectAndParseTables c).state.tables
      = c.state.tables
        ++ ((tableMatches c.state.assistantText).drop c.state.tables.length).filterMap
            parseMarkdownTable
    ∧ detectAndParseTables (detectAndParseTables c) = detectAndParseTables c := by
  refine ⟨(detectAndParseTables_spec c).1, ?_⟩
  have h1 := detectAndParseTables_spec c
  have hlen : ¬ (tableMatches (detectAndParseTables c).state.assistantText).length
      > (detectAndParseTables c).state.tables.length := by
    rw [h1.2, h1.1, List.length_append,
      filterMap_parse_length _
        (fun m hm => tableMatches_parse c.state.assistantText m (List.mem_of_mem_drop hm)),
      List.length_drop]
    omega
  rw [show detectAndParseTables (detectAndParseTables c)
      = (if (tableMatches (detectAndParseTables c).state.assistantText).length
            > (detectAndParseTables c).state.tables.length then
          ((tableMatches (detectAndParseTables c).state.assistantText).drop
            (detectAndParseTables c).state.tables.length).foldl detectPush
            (detectAndParseTables c)
        else detectAndParseTables c) from rfl]
  rw [if_neg hlen]

end ICChips

namespace ICChips

/-! ### The faithful and the fused pipeline agree on throw-free input

`handleEvent` neither reads nor writes `jsonBuffer`: setting the
accumulator commutes with every handler block. -/

lemma pushTA_jb (c : Core) (b l : List Char) :
    pushTA { c with jsonBuffer := b } l = { pushTA c l with jsonBuffer := b } := rfl

lemma pushWSA_jb (c : Core) (b l : List Char) :
    pushWSA { c with jsonBuffer := b } l = { pushWSA c l with jsonBuffer := b } := rfl

lemma pushTAUnless_jb (c : Core) (b marker l : List Char) :
    pushTAUnless { c with jsonBuffer := b } marker l
      = { pushTAUnless c marker l with jsonBuffer := b } := by
  unfold pushTAUnless pushTA
  dsimp only
  repeat' split
  all_goals rfl

lemma sessionStep_jb (c : Core) (b : List Char) (e : Json) :
    sessionStep { c with jsonBuffer := b } e = { sessionStep c e with jsonBuffer := b } := by
  unfold sessionStep
  dsimp only
  split <;> rfl

lemma messageStartStep_jb (c : Core) (b : List Char) (e : Json) :
    messageStartStep { c with jsonBuffer := b } e
      = { messageStartStep c e with jsonBuffer := b } := by
  unfold messageStartStep
  dsimp only
  repeat' split
  all_goals rfl

lemma detectPush_jb (c : Core) (b m : List Char) :
    detectPush { c with jsonBuffer := b } m = { detectPush c m with jsonBuffer := b } := by
  unfold detectPush
  dsimp only
  split <;> rfl

lemma foldl_detectPush_jb (ms : List (List Char)) : ∀ (c : Core) (b : List Char),
    ms.foldl detectPush { c with jsonBuffer := b }
      = { ms.foldl detectPush c with jsonBuffer := b } := by
  induction ms with
  | nil => intro c b; rfl
  | cons m rest ih =>
    intro c b
    rw [List.foldl_cons, List.foldl_cons, detectPush_jb]
    exact ih (detectPush c m) b

lemma detectAndParseTables_jb (c : Core) (b : List Char) :
    detectAndParseTables { c with jsonBuffer := b }
      = { detectAndParseTables c with jsonBuffer := b } := by
  unfold detectAndParseTables
  dsimp only
  split
  · rw [foldl_detectPush_jb]
  · rfl

end ICChips

namespace ICChips

lemma detect_state_jb (c : Core) (s : StreamState) (b : List Char) :
    detectAndParseTables { c with state := s, jsonBuffer := b }
      = { detectAndParseTables { c with state := s } with jsonBuffer := b } :=
  detectAndParseTables_jb { c with state := s } b

lemma textDelta_jb (c : Core) (b : List Char) (delta : Json) :
    textDelta { c with jsonBuffer := b } delta
      = { textDelta c delta with jsonBuffer := b } := by
  unfold textDelta
  dsimp only
  rw [detect_state_jb]

lemma thinkingDelta_jb (c : Core) (b : List Char) (delta : Json) :
    thinkingDelta { c with jsonBuffer := b } delta
      = { thinkingDelta c delta with jsonBuffer := b } := rfl

lemma inputDeltaAccum_jb (c : Core) (b command : List Char) :
    inputDeltaAccum { c with jsonBuffer := b } command
      = { inputDeltaAccum c command with jsonBuffer := b } := rfl

lemma sniffQuery_jb (c : Core) (b : List Char) :
    sniffQuery { c with jsonBuffer := b } = { sniffQuery c with jsonBuffer := b } := by
  unfold sniffQuery
  dsimp only
  split
  · exact pushTAUnless_jb _ _ _ _
  · rfl

lemma sniffUrl_jb (c : Core) (b : List Char) :
    sniffUrl { c with jsonBuffer := b } = { sniffUrl c with jsonBuffer := b } := by
  unfold sniffUrl
  dsimp only
  split
  · exact pushTAUnless_jb _ _ _ _
  · rfl

lemma sniffPrompt_jb (c : Core) (b : List Char) :
    sniffPrompt { c with jsonBuffer := b } = { sniffPrompt c with jsonBuffer := b } := by
  unfold sniffPrompt
  dsimp only
  split
  · exact pushTAUnless_jb _ _ _ _
  · rfl

lemma sniffParams_jb (c : Core) (b : List Char) :
    sniffParams { c with jsonBuffer := b } = { sniffParams c with jsonBuffer := b } := by
  unfold sniffParams
  dsimp only
  split
  · rw [sniffQuery_jb, sniffUrl_jb, sniffPrompt_jb]
  · rfl

lemma wsProcessing_jb (c : Core) (b command : List Char) :
    wsProcessing { c with jsonBuffer := b } command
      = { wsProcessing c command with jsonBuffer := b } := by
  unfold wsProcessing
  dsimp only
  split
  · exact pushWSA_jb _ _ _
  · rfl

lemma wsNarrate_jb (c : Core) (b command : List Char) :
    wsNarrate { c with jsonBuffer := b } command
      = { wsNarrate c command with jsonBuffer := b } := by
  unfold wsNarrate
  dsimp only
  repeat' split
  all_goals first
    | rfl
    | exact pushWSA_jb _ _ _
    | exact wsProcessing_jb _ _ _

lemma inputDeltaFinish_jb (c : Core) (b command : List Char) :
    inputDeltaFinish { c with jsonBuffer := b } command
      = { inputDeltaFinish c command with jsonBuffer := b } := rfl

lemma inputJsonDelta_jb (c : Core) (b : List Char) (delta : Json) :
    inputJsonDelta { c with jsonBuffer := b } delta
      = { inputJsonDelta c delta with jsonBuffer := b } := by
  unfold inputJsonDelta
  dsimp only
  rw [inputDeltaAccum_jb, sniffParams_jb, wsNarrate_jb, inputDeltaFinish_jb]

lemma deltaStep_jb (c : Core) (b : List Char) (e : Json) :
    deltaStep { c with jsonBuffer := b } e = { deltaStep c e with jsonBuffer := b } := by
  unfold deltaStep
  dsimp only
  repeat' split
  all_goals try conv_lhs => rw [textDelta_jb]
  all_goals try conv_lhs => rw [thinkingDelta_jb]
  all_goals try conv_lhs => rw [inputJsonDelta_jb]
  all_goals rfl

lemma blockStartStep_jb (c : Core) (b : List Char) (e : Json) :
    blockStartStep { c with jsonBuffer := b } e
      = { blockStartStep c e with jsonBuffer := b } := by
  unfold blockStartStep pushWSA
  dsimp only
  repeat' split
  all_goals rfl

lemma stopToolNarrate_jb (c : Core) (b : List Char) :
    stopToolNarrate { c with jsonBuffer := b } = { stopToolNarrate c with jsonBuffer := b } := by
  unfold stopToolNarrate pushTA
  dsimp only
  repeat' split
  all_goals rfl

lemma stopToolNarrate_state_em_jb (c : Core) (s : StreamState) (em : List Emit) (b : List Char) :
    stopToolNarrate { c with state := s, emitted := em, jsonBuffer := b }
      = { stopToolNarrate { c with state := s, emitted := em } with jsonBuffer := b } :=
  stopToolNarrate_jb { c with state := s, emitted := em } b

lemma stopWsNarrate_jb (c : Core) (b : List Char) :
    stopWsNarrate { c with jsonBuffer := b } = { stopWsNarrate c with jsonBuffer := b } := by
  unfold stopWsNarrate pushWSA
  dsimp only
  repeat' split
  all_goals rfl

lemma stopClear_jb (c : Core) (b : List Char) :
    stopClear { c with jsonBuffer := b } = { stopClear c with jsonBuffer := b } := rfl

lemma blockStopFinalize_jb (c : Core) (b : List Char) :
    blockStopFinalize { c with jsonBuffer := b }
      = { blockStopFinalize c with jsonBuffer := b } := by
  unfold blockStopFinalize
  dsimp only
  rw [stopToolNarrate_state_em_jb, stopWsNarrate_jb, stopClear_jb]

lemma blockStopStep_jb (c : Core) (b : List Char) (e : Json) :
    blockStopStep { c with jsonBuffer := b } e
      = { blockStopStep c e with jsonBuffer := b } := by
  unfold blockStopStep
  dsimp only
  repeat' split
  all_goals first
    | rfl
    | exact blockStopFinalize_jb _ _

lemma usageStep_jb (c : Core) (b : List Char) (e : Json) :
    usageStep { c with jsonBuffer := b } e = { usageStep c e with jsonBuffer := b } := by
  unfold usageStep
  dsimp only
  split <;> rfl

lemma messageStopStep_jb (c : Core) (b : List Char) (e : Json) :
    messageStopStep { c with jsonBuffer := b } e
      = { messageStopStep c e with jsonBuffer := b } := by
  unfold messageStopStep
  dsimp only
  split <;> rfl

lemma handleEvent_jb (c : Core) (b : List Char) (e : Json) :
    handleEvent { c with jsonBuffer := b } e = { handleEvent c e with jsonBuffer := b } := by
  unfold handleEvent
  rw [sessionStep_jb, messageStartStep_jb, deltaStep_jb, blockStartStep_jb,
    blockStopStep_jb, usageStep_jb, messageStopStep_jb]

lemma handleEvent_jsonBuffer (c : Core) (e : Json) :
    (handleEvent c e).jsonBuffer = c.jsonBuffer := by
  have h := handleEvent_jb c c.jsonBuffer e
  have h2 : ({ c with jsonBuffer := c.jsonBuffer } : Core) = c := rfl
  rw [h2] at h
  rw [h]

lemma foldl_handleEvent_jb (evs : List Json) : ∀ (c : Core) (b : List Char),
    evs.foldl handleEvent { c with jsonBuffer := b }
      = { evs.foldl handleEvent c with jsonBuffer := b } := by
  induction evs with
  | nil => intro c b; rfl
  | cons e rest ih =>
    intro c b
    rw [List.foldl_cons, List.foldl_cons, handleEvent_jb]
    exact ih (handleEvent c e) b

end ICChips

namespace ICChips

end ICChips

namespace ICChips

lemma foldl_handleEvent_jsonBuffer (evs : List Json) (c : Core) :
    (evs.foldl handleEvent c).jsonBuffer = c.jsonBuffer := by
  have h := foldl_handleEvent_jb evs c c.jsonBuffer
  have h2 : ({ c with jsonBuffer := c.jsonBuffer } : Core) = c := rfl
  rw [h2] at h
  rw [h]

end ICChips

namespace ICChips

end ICChips
